import Mathlib

/-!
Verification of the IceT single-tile compositing core strategies
(`src/strategies/radixk.c` and `src/strategies/reduce.c`).

The C sources are shallowly embedded: pure helper routines become Lean
functions on `ℕ`/`ℤ`/`List`, the stateful tree-composite engine becomes an
explicit state-passing step function, and the top-level compose drivers are
modelled over abstract image/communication collaborators (the image format
and the messaging layer are external to the repository under verification).
-/

namespace IceT

/-! ## Factorization (`radixkGetK`, radixk.c lines 87-179)

`BEGIN_PIVOT_FOR(loop_var, low, pivot, high)` (radixk.c lines 56-78) iterates
over `pivot, pivot-1, pivot+1, pivot-2, ...` visiting every number in
`[low, high)` and skipping the out-of-range picks.  `true_iter` runs from `1`
to `max - 1` where `max = 2*((pivot < (high+low)/2) ? high-pivot : pivot-low+1)`.
All quantities used by the factorization are non-negative C `int`s, so they
are embedded as `ℕ` (C integer division truncates toward zero, which on
non-negative operands agrees with `ℕ` division; `pivot - true_iter/2` may go
negative in C but is then skipped by the `loop_var < low` guard, which the
`ℕ` truncated subtraction also skips because `low ≥ 2 > 0`). -/

def pivotSeq (low pivot high : ℕ) : List ℕ :=
  let tmax := 2 * (if pivot < (high + low) / 2 then high - pivot else pivot - low + 1)
  (List.range' 1 (tmax - 1)).filterMap (fun true_iter =>
    if true_iter % 2 = 0 then
      (if pivot - true_iter / 2 < low then none else some (pivot - true_iter / 2))
    else
      (if high ≤ pivot + true_iter / 2 then none else some (pivot + true_iter / 2)))

theorem pivotSeq_mem_bounds {low pivot high x : ℕ} (hx : x ∈ pivotSeq low pivot high)
    (hpl : low ≤ pivot) (hph : pivot < high) : low ≤ x ∧ x < high := by
  simp only [pivotSeq, List.mem_filterMap] at hx
  obtain ⟨iter, -, hit⟩ := hx
  split at hit
  · split at hit
    · exact absurd hit (by simp)
    · rename_i hge
      cases hit
      omega
  · split at hit
    · exact absurd hit (by simp)
    · rename_i hge
      cases hit
      omega

/-- One step of the factor search in `radixkGetK` (radixk.c lines 104-150):
`next_k` for the current `next_divide = n`.  First the `magic_k` divisibility
test (line 109), then the pivot search over `[2, 2*magic_k)` (line 116), then
the upward scan `for (try_k = 2*magic_k; try_k < max_k; try_k++)` with
`max_k = (int)floor(sqrt(next_divide))` (lines 133-143; `Nat.sqrt` is the
exact floor of the real square root), and finally `next_divide` itself
(line 149). -/
def radixkFindNextK (magic_k n : ℕ) : ℕ :=
  if n % magic_k = 0 then magic_k
  else
    match (pivotSeq 2 magic_k (2 * magic_k)).find? (fun try_k => n % try_k == 0) with
    | some try_k => try_k
    | none =>
      match (List.range' (2 * magic_k) (Nat.sqrt n - 2 * magic_k)).find?
          (fun try_k => n % try_k == 0) with
      | some try_k => try_k
      | none => n

theorem radixkFindNextK_dvd (magic_k n : ℕ) :
    radixkFindNextK magic_k n ∣ n := by
  unfold radixkFindNextK
  split
  · exact Nat.dvd_of_mod_eq_zero (by assumption)
  · split
    · rename_i k hk
      have := List.find?_some hk
      simpa using Nat.dvd_of_mod_eq_zero (by simpa using this)
    · split
      · rename_i k hk
        have := List.find?_some hk
        simpa using Nat.dvd_of_mod_eq_zero (by simpa using this)
      · exact dvd_refl n

theorem radixkFindNextK_two_le (magic_k n : ℕ) (hm : 2 ≤ magic_k) (hn : 2 ≤ n) :
    2 ≤ radixkFindNextK magic_k n := by
  unfold radixkFindNextK
  split
  · exact hm
  · split
    · rename_i k hk
      have := List.mem_of_find?_eq_some hk
      exact (pivotSeq_mem_bounds this (by omega) (by omega)).1
    · split
      · rename_i k hk
        have := List.mem_of_find?_eq_some hk
        rw [List.mem_range'_1] at this
        omega
      · exact hn

/-- The factor list computed by `radixkGetK` (radixk.c lines 104-161): the
`while (next_divide > 1)` loop collecting `next_k` values.  `magic_k ≥ 2` is
taken as an argument because it makes every `next_k` at least 2, which is
what makes the C loop terminate. -/
def radixkGetK (magic_k : ℕ) (hm : 2 ≤ magic_k) : ℕ → List ℕ
  | n =>
    if h : n ≤ 1 then []
    else
      have hk2 : 2 ≤ radixkFindNextK magic_k n := radixkFindNextK_two_le magic_k n hm (by omega)
      have : n / radixkFindNextK magic_k n < n := Nat.div_lt_self (by omega) (by omega)
      radixkFindNextK magic_k n :: radixkGetK magic_k hm (n / radixkFindNextK magic_k n)

theorem radixkGetK_prod (magic_k : ℕ) (hm : 2 ≤ magic_k) :
    ∀ n, 1 ≤ n → (radixkGetK magic_k hm n).prod = n := by
  intro n
  induction n using Nat.strong_induction_on with
  | _ n ih =>
    intro hn
    rw [radixkGetK]
    split
    · simp
      omega
    · rename_i h
      have hk2 : 2 ≤ radixkFindNextK magic_k n := radixkFindNextK_two_le magic_k n hm (by omega)
      have hdvd : radixkFindNextK magic_k n ∣ n := radixkFindNextK_dvd magic_k n
      have hlt : n / radixkFindNextK magic_k n < n := Nat.div_lt_self (by omega) (by omega)
      have hpos : 1 ≤ n / radixkFindNextK magic_k n :=
        Nat.one_le_div_iff (by omega) |>.mpr (Nat.le_of_dvd (by omega) hdvd)
      rw [List.prod_cons, ih _ hlt hpos, Nat.mul_div_cancel' hdvd]

theorem radixkGetK_two_le (magic_k : ℕ) (hm : 2 ≤ magic_k) :
    ∀ n, ∀ k ∈ radixkGetK magic_k hm n, 2 ≤ k := by
  intro n
  induction n using Nat.strong_induction_on with
  | _ n ih =>
    intro k hk
    rw [radixkGetK] at hk
    split at hk
    · simp at hk
    · rename_i h
      have hk2 : 2 ≤ radixkFindNextK magic_k n := radixkFindNextK_two_le magic_k n hm (by omega)
      have hlt : n / radixkFindNextK magic_k n < n := Nat.div_lt_self (by omega) (by omega)
      rcases List.mem_cons.mp hk with rfl | hmem
      · exact hk2
      · exact ih _ hlt k hmem

theorem radixkGetK_ne_nil (magic_k : ℕ) (hm : 2 ≤ magic_k) (n : ℕ) (hn : 2 ≤ n) :
    radixkGetK magic_k hm n ≠ [] := by
  rw [radixkGetK]
  split
  · omega
  · simp

/-- The factor-count cap computed at radixk.c line 100:
`max_num_k = (int)(floor(log10(world_size)/log10(2)))`, which in exact real
arithmetic is `⌊log₂ world_size⌋ = Nat.log 2 world_size`. -/
def radixkMaxNumK (world_size : ℕ) : ℕ := Nat.log 2 world_size

/-- The fatal sanity check at radixk.c lines 157-160: raised whenever
`num_groups > max_num_k` after appending a factor.  Since `num_groups` only
grows, the check fires at some iteration iff the final factor count exceeds
the cap. -/
def radixkGetK_countError (magic_k : ℕ) (hm : 2 ≤ magic_k) (world_size : ℕ) : Bool :=
  decide ((radixkGetK magic_k hm world_size).length > radixkMaxNumK world_size)

theorem radixkGetK_length_le (magic_k : ℕ) (hm : 2 ≤ magic_k) :
    ∀ n, 1 ≤ n → (radixkGetK magic_k hm n).length ≤ Nat.log 2 n := by
  intro n
  induction n using Nat.strong_induction_on with
  | _ n ih =>
    intro hn
    rw [radixkGetK]
    split
    · simp
    · rename_i h
      have hk2 : 2 ≤ radixkFindNextK magic_k n := radixkFindNextK_two_le magic_k n hm (by omega)
      have hdvd : radixkFindNextK magic_k n ∣ n := radixkFindNextK_dvd magic_k n
      have hlt : n / radixkFindNextK magic_k n < n := Nat.div_lt_self (by omega) (by omega)
      have hpos : 1 ≤ n / radixkFindNextK magic_k n :=
        Nat.one_le_div_iff (by omega) |>.mpr (Nat.le_of_dvd (by omega) hdvd)
      rw [List.length_cons]
      have hdivle : n / radixkFindNextK magic_k n ≤ n / 2 :=
        Nat.div_le_div_left hk2 (by omega)
      have h1 : (radixkGetK magic_k hm (n / radixkFindNextK magic_k n)).length ≤
          Nat.log 2 (n / 2) :=
        le_trans (ih _ hlt hpos) (Nat.log_mono_right hdivle)
      have h2 : Nat.log 2 (n / 2) + 1 = Nat.log 2 n := by
        have h3 := Nat.log_div_base 2 n
        have h4 : 0 < Nat.log 2 n := Nat.log_pos (by omega) (by omega)
        omega
      omega

/-- C6: for every `G ≥ 2` and `magic_k ≥ 2`, the number of factors produced
by `radixkGetK` never exceeds `⌊log₂ G⌋` (the cap computed at radixk.c line
100 as `floor(log10 G / log10 2)`), so the fatal sanity-check branch at
lines 157-160 is unreachable. -/
theorem radixk_factor_count_bound (magic_k G : ℕ) (hm : 2 ≤ magic_k) (hG : 2 ≤ G) :
    (radixkGetK magic_k hm G).length ≤ radixkMaxNumK G ∧
      radixkGetK_countError magic_k hm G = false := by
  have h := radixkGetK_length_le magic_k hm G (by omega)
  refine ⟨h, ?_⟩
  simp [radixkGetK_countError, radixkMaxNumK]
  exact h

theorem radixk_factor_count_bound_witness :
    2 ≤ 8 ∧ 2 ≤ 16 ∧
      ((radixkGetK 8 (by norm_num) 16).length ≤ radixkMaxNumK 16 ∧
        radixkGetK_countError 8 (by norm_num) 16 = false) :=
  ⟨by norm_num, by norm_num, radixk_factor_count_bound 8 16 (by norm_num) (by norm_num)⟩

/-- C5 (code bug): the claim says the third phase of the factor search scans
`try_k` from `2*magic_k` up to `⌊√n⌋` **inclusive**, which matches the
intent of the comment at radixk.c lines 130-132 ("the largest possible
smallest factor ... is the square root"); the loop at line 138 however uses
`try_k < max_k`, excluding `⌊√n⌋` itself.  At `magic_k = 2`, `n = 25` the
sole factorization of 25 by a value in the claimed range is by
`⌊√25⌋ = 5`, yet the code returns 25 itself: the scan phase missed the
divisor 5 even though 5 lies in `[2*magic_k, ⌊√n⌋]`, `magic_k` does not
divide 25, and no integer in `[2, 2*magic_k)` divides 25. -/
theorem radixk_sqrt_scan_misses_square_root :
    radixkFindNextK 2 25 = 25 ∧ Nat.sqrt 25 = 5 ∧ 25 % 5 = 0 ∧ 2 * 2 ≤ 5 ∧
      25 % 2 ≠ 0 ∧ (∀ t ∈ pivotSeq 2 2 (2 * 2), 25 % t ≠ 0) ∧
      radixkGetK 2 (by norm_num) 25 = [25] := by
  have hsqrt : Nat.sqrt 25 = 5 := by norm_num
  have hpivot : pivotSeq 2 2 (2 * 2) = [2, 3] := by
    simp [pivotSeq, List.range']
  have hfind : radixkFindNextK 2 25 = 25 := by
    unfold radixkFindNextK
    rw [hsqrt, hpivot]
    decide
  refine ⟨hfind, hsqrt, by norm_num, by norm_num, by norm_num, ?_, ?_⟩
  · rw [hpivot]
    intro t ht
    simp at ht
    rcases ht with rfl | rfl <;> norm_num
  · rw [radixkGetK]
    norm_num [hfind]
    rw [radixkGetK]
    norm_num

/-- C1: for every group size `G ≥ 2` and configured `magic_k ≥ 2`, the
factorization `radixkGetK(G)` returns a non-empty list of factors whose
product equals `G`, with every entry at least 2 (radixk.c lines 87-179;
spec §4.2 and §8 property 1). -/
theorem radixk_factorization (magic_k G : ℕ) (hm : 2 ≤ magic_k) (hG : 2 ≤ G) :
    (radixkGetK magic_k hm G).prod = G ∧ radixkGetK magic_k hm G ≠ [] ∧
      ∀ k ∈ radixkGetK magic_k hm G, 2 ≤ k :=
  ⟨radixkGetK_prod magic_k hm G (by omega), radixkGetK_ne_nil magic_k hm G hG,
    radixkGetK_two_le magic_k hm G⟩

theorem radixk_factorization_witness :
    2 ≤ 8 ∧ 2 ≤ 12 ∧
      ((radixkGetK 8 (by norm_num) 12).prod = 12 ∧ radixkGetK 8 (by norm_num) 12 ≠ [] ∧
        ∀ k ∈ radixkGetK 8 (by norm_num) 12, 2 ≤ k) :=
  ⟨by norm_num, by norm_num, radixk_factorization 8 12 (by norm_num) (by norm_num)⟩

/-! ## Partition indices (`radixkGetPartitionIndices`, radixk.c lines 195-210)

The C loop is
`for (i...) { partition_indices[i] = (group_rank / step) % k_array[i]; step *= k_array[i]; }`
starting from `step = 1`; the recursion below carries `step` the same way
(`num_rounds` is the length of `k_array`). -/

def radixkGetPartitionIndicesFrom (group_rank : ℕ) : List ℕ → ℕ → List ℕ
  | [], _ => []
  | k :: ks, step => ((group_rank / step) % k) :: radixkGetPartitionIndicesFrom group_rank ks (step * k)

def radixkGetPartitionIndices (k_array : List ℕ) (group_rank : ℕ) : List ℕ :=
  radixkGetPartitionIndicesFrom group_rank k_array 1

/-- The mixed-radix pack `∑ i, pidx[i] * ∏_{j<i} k_j` from the claim
(spec §3, partition index vector invariant). -/
def mixedRadixPack : List ℕ → List ℕ → ℕ
  | [], _ => 0
  | _, [] => 0
  | k :: ks, p :: ps => p + k * mixedRadixPack ks ps

theorem radixkGetPartitionIndicesFrom_length (group_rank : ℕ) (ks : List ℕ) (step : ℕ) :
    (radixkGetPartitionIndicesFrom group_rank ks step).length = ks.length := by
  induction ks generalizing step with
  | nil => rfl
  | cons k ks ih => simp [radixkGetPartitionIndicesFrom, ih]

theorem radixkGetPartitionIndicesFrom_getD (group_rank : ℕ) (ks : List ℕ) (step : ℕ)
    (i : ℕ) (hi : i < ks.length) :
    (radixkGetPartitionIndicesFrom group_rank ks step).getD i 0 =
      (group_rank / (step * ((ks.take i).prod))) % ks.getD i 0 := by
  induction ks generalizing step i with
  | nil => simp at hi
  | cons k ks ih =>
    cases i with
    | zero => simp [radixkGetPartitionIndicesFrom]
    | succ i =>
      simp only [radixkGetPartitionIndicesFrom, List.getD_cons_succ, List.take_succ_cons,
        List.prod_cons]
      rw [ih (step * k) i (by simpa using hi)]
      ring_nf

theorem radixkGetPartitionIndicesFrom_pack (group_rank : ℕ) (ks : List ℕ) (step : ℕ) :
    mixedRadixPack ks (radixkGetPartitionIndicesFrom group_rank ks step) =
      (group_rank / step) % ks.prod := by
  induction ks generalizing step with
  | nil => simp [mixedRadixPack, Nat.mod_one]
  | cons k ks ih =>
    simp only [radixkGetPartitionIndicesFrom, mixedRadixPack, List.prod_cons]
    rw [ih (step * k)]
    rw [Nat.mod_mul]
    rw [Nat.div_div_eq_div_mul]

/-- C3: for every factor list with entries `k_i ≥ 2` and every
`group_rank < G = ∏ k_i`, `radixkGetPartitionIndices` (radixk.c lines
195-210) produces one index per round with
`pidx[i] = (group_rank / ∏_{j<i} k_j) mod k_i`, each strictly below `k_i`;
the mixed-radix pack `∑ pidx[i]·∏_{j<i} k_j` recovers `group_rank`, and
distinct group ranks give distinct index vectors. -/
theorem radixk_partition_indices_spec (k_array : List ℕ) (group_rank : ℕ)
    (hk : ∀ k ∈ k_array, 2 ≤ k) (hrank : group_rank < k_array.prod) :
    (radixkGetPartitionIndices k_array group_rank).length = k_array.length ∧
      (∀ i, i < k_array.length →
        (radixkGetPartitionIndices k_array group_rank).getD i 0 =
          (group_rank / (k_array.take i).prod) % k_array.getD i 0) ∧
      (∀ i, i < k_array.length →
        (radixkGetPartitionIndices k_array group_rank).getD i 0 < k_array.getD i 0) ∧
      mixedRadixPack k_array (radixkGetPartitionIndices k_array group_rank) = group_rank ∧
      (∀ group_rank', group_rank' < k_array.prod → group_rank' ≠ group_rank →
        radixkGetPartitionIndices k_array group_rank' ≠
          radixkGetPartitionIndices k_array group_rank) := by
  refine ⟨radixkGetPartitionIndicesFrom_length group_rank k_array 1, ?_, ?_, ?_, ?_⟩
  · intro i hi
    have := radixkGetPartitionIndicesFrom_getD group_rank k_array 1 i hi
    simpa [radixkGetPartitionIndices] using this
  · intro i hi
    have := radixkGetPartitionIndicesFrom_getD group_rank k_array 1 i hi
    rw [radixkGetPartitionIndices, this]
    have hki : 2 ≤ k_array.getD i 0 := by
      rw [List.getD_eq_getElem _ _ hi]
      exact hk _ (List.getElem_mem hi)
    exact Nat.mod_lt _ (by omega)
  · have := radixkGetPartitionIndicesFrom_pack group_rank k_array 1
    rw [radixkGetPartitionIndices, this]
    simpa using Nat.mod_eq_of_lt hrank
  · intro q hq hne heq
    have h1 := radixkGetPartitionIndicesFrom_pack q k_array 1
    have h2 := radixkGetPartitionIndicesFrom_pack group_rank k_array 1
    rw [radixkGetPartitionIndices] at heq
    rw [radixkGetPartitionIndices] at heq
    rw [heq] at h1
    rw [h2] at h1
    rw [Nat.div_one, Nat.div_one] at h1
    rw [Nat.mod_eq_of_lt hrank, Nat.mod_eq_of_lt hq] at h1
    exact hne h1.symm

theorem radixk_partition_indices_spec_witness :
    (∀ k ∈ [2, 2, 2, 2], 2 ≤ k) ∧ 11 < ([2, 2, 2, 2] : List ℕ).prod ∧
      ((radixkGetPartitionIndices [2, 2, 2, 2] 11).length = ([2, 2, 2, 2] : List ℕ).length ∧
        (∀ i, i < ([2, 2, 2, 2] : List ℕ).length →
          (radixkGetPartitionIndices [2, 2, 2, 2] 11).getD i 0 =
            (11 / (([2, 2, 2, 2] : List ℕ).take i).prod) % ([2, 2, 2, 2] : List ℕ).getD i 0) ∧
        (∀ i, i < ([2, 2, 2, 2] : List ℕ).length →
          (radixkGetPartitionIndices [2, 2, 2, 2] 11).getD i 0 <
            ([2, 2, 2, 2] : List ℕ).getD i 0) ∧
        mixedRadixPack [2, 2, 2, 2] (radixkGetPartitionIndices [2, 2, 2, 2] 11) = 11 ∧
        (∀ q, q < ([2, 2, 2, 2] : List ℕ).prod → q ≠ 11 →
          radixkGetPartitionIndices [2, 2, 2, 2] q ≠
            radixkGetPartitionIndices [2, 2, 2, 2] 11)) :=
  ⟨by decide, by decide, radixk_partition_indices_spec [2, 2, 2, 2] 11 (by decide) (by decide)⟩

/-! ## Reduce strategy: process-to-tile allocation (`delegate`, reduce.c lines 211-268)

All tile counters are C `IceTInt`s and may go negative in the removal loop,
so they are embedded as `ℤ`.  Every division performed here has a
non-negative dividend and a positive divisor, where C truncated division and
Lean's `ℤ` division agree.  The two balancing loops compare tile ratios with
C `float` arithmetic; since the comparison only selects *which* tile is
adjusted, the embedding takes the comparator as an arbitrary function
(`ratioLt`, `ratioGt`) and the theorems hold for every comparator — in
particular for whatever the IEEE float expressions compute. -/

theorem list_getD_set_self (L : List ℤ) (n : ℕ) (a : ℤ) (h : n < L.length) :
    (L.set n a).getD n 0 = a := by
  induction L generalizing n with
  | nil => simp at h
  | cons x L ih =>
    cases n with
    | zero => rfl
    | succ n => exact ih n (by simpa using h)

theorem list_getD_set_ne (L : List ℤ) (n m : ℕ) (a : ℤ) (h : n ≠ m) :
    (L.set n a).getD m 0 = L.getD m 0 := by
  induction L generalizing n m with
  | nil => simp
  | cons x L ih =>
    cases n with
    | zero =>
      cases m with
      | zero => exact absurd rfl h
      | succ m => rfl
    | succ n =>
      cases m with
      | zero => rfl
      | succ m => exact ih n m (by omega)

theorem list_sum_set (L : List ℤ) (n : ℕ) (a : ℤ) (h : n < L.length) :
    (L.set n a).sum = L.sum - L.getD n 0 + a := by
  induction L generalizing n with
  | nil => simp at h
  | cons x L ih =>
    cases n with
    | zero => simp [List.sum_cons]; ring
    | succ n =>
      show (x :: L.set n a).sum = _
      simp only [List.sum_cons, List.getD_cons_succ, ih n (by simpa using h)]
      ring

theorem list_getD_map (f : ℤ → ℤ) (L : List ℤ) (n : ℕ) (h : n < L.length) :
    (L.map f).getD n 0 = f (L.getD n 0) := by
  induction L generalizing n with
  | nil => simp at h
  | cons x L ih =>
    cases n with
    | zero => rfl
    | succ n => exact ih n (by simpa using h)

theorem list_sum_le_sum_of_getD (L M : List ℤ) (hlen : L.length = M.length)
    (h : ∀ t, t < L.length → L.getD t 0 ≤ M.getD t 0) : L.sum ≤ M.sum := by
  induction L generalizing M with
  | nil =>
    cases M with
    | nil => simp
    | cons y M => simp at hlen
  | cons x L ih =>
    cases M with
    | nil => simp at hlen
    | cons y M =>
      simp only [List.sum_cons]
      have h0 := h 0 (by simp)
      have hrest : L.sum ≤ M.sum := by
        refine ih M (by simpa using hlen) ?_
        intro t ht
        exact h (t + 1) (by simpa using ht)
      simp only [List.getD_cons_zero] at h0
      omega

/-- The proportional allocation `delegate` starts with (reduce.c lines
213-227): `allocate = contrib_counts[tile]*num_processes/total_image_count`,
bumped to 1 for non-empty tiles and clamped to `contrib_counts[tile]`. -/
def reduceInitialAllocation (contrib : List ℤ) (num_processes total_image_count : ℤ) :
    List ℤ :=
  contrib.map (fun c =>
    let allocate := c * num_processes / total_image_count
    let allocate := if allocate < 1 ∧ 0 < c then 1 else allocate
    if allocate > c then c else allocate)

/-- One comparison step of the scan at reduce.c lines 233-242 that finds the
tile with the largest image-to-process ratio that can still have a process
added to it. -/
def reduceFindMaxStep (ratioLt : ℤ → ℤ → ℤ → ℤ → Bool) (contrib num : List ℤ)
    (max tile : ℕ) : ℕ :=
  if num.getD tile 0 < contrib.getD tile 0 ∧
      (num.getD max 0 = contrib.getD max 0 ∨
        ratioLt (contrib.getD max 0) (num.getD max 0)
          (contrib.getD tile 0) (num.getD tile 0)) then
    tile
  else max

/-- The whole scan of reduce.c lines 233-242: `max` starts at 0 and `tile`
runs over `1 .. num_tiles-1`. -/
def reduceFindMaxTile (ratioLt : ℤ → ℤ → ℤ → ℤ → Bool) (contrib num : List ℤ) : ℕ :=
  (List.range' 1 (contrib.length - 1)).foldl (reduceFindMaxStep ratioLt contrib num) 0

/-- One comparison step of the scan at reduce.c lines 256-265 that finds the
tile with the smallest ratio that still has more than one process. -/
def reduceFindMinStep (ratioGt : ℤ → ℤ → ℤ → ℤ → Bool) (contrib num : List ℤ)
    (min tile : ℕ) : ℕ :=
  if 1 < num.getD tile 0 ∧
      (num.getD min 0 < 2 ∨
        ratioGt (contrib.getD min 0) (num.getD min 0)
          (contrib.getD tile 0) (num.getD tile 0)) then
    tile
  else min

/-- The whole scan of reduce.c lines 256-265. -/
def reduceFindMinTile (ratioGt : ℤ → ℤ → ℤ → ℤ → Bool) (contrib num : List ℤ) : ℕ :=
  (List.range' 1 (contrib.length - 1)).foldl (reduceFindMinStep ratioGt contrib num) 0

/-- `while (num_processes > pcount)` at reduce.c lines 230-250: add a
process to the chosen tile if it still has headroom, otherwise break.
The loop adds one process per iteration, so
`fuel = (num_processes - pcount).toNat` iterations always suffice; the
wrapper below passes exactly that. -/
def reduceAddLoop (ratioLt : ℤ → ℤ → ℤ → ℤ → Bool) (contrib : List ℤ)
    (num_processes : ℤ) : ℕ → List ℤ → ℤ → List ℤ × ℤ
  | 0, num, pcount => (num, pcount)
  | fuel + 1, num, pcount =>
    if num_processes > pcount then
      (if num.getD (reduceFindMaxTile ratioLt contrib num) 0 <
          contrib.getD (reduceFindMaxTile ratioLt contrib num) 0 then
        reduceAddLoop ratioLt contrib num_processes fuel
          (num.set (reduceFindMaxTile ratioLt contrib num)
            (num.getD (reduceFindMaxTile ratioLt contrib num) 0 + 1))
          (pcount + 1)
      else (num, pcount))
    else (num, pcount)

/-- `while (num_processes < pcount)` at reduce.c lines 253-268: always
removes a process from the chosen tile (no break), so it runs exactly
`(pcount - num_processes).toNat` iterations, which is the fuel the wrapper
passes. -/
def reduceRemoveLoop (ratioGt : ℤ → ℤ → ℤ → ℤ → Bool) (contrib : List ℤ)
    (num_processes : ℤ) : ℕ → List ℤ → ℤ → List ℤ × ℤ
  | 0, num, pcount => (num, pcount)
  | fuel + 1, num, pcount =>
    if num_processes < pcount then
      reduceRemoveLoop ratioGt contrib num_processes fuel
        (num.set (reduceFindMinTile ratioGt contrib num)
          (num.getD (reduceFindMinTile ratioGt contrib num) 0 - 1))
        (pcount - 1)
    else (num, pcount)

/-- The whole allocation phase of `delegate` (reduce.c lines 211-268):
initial proportional allocation, then the add loop, then the remove loop.
Returns `num_proc_for_tile`. -/
def reduceAllocatePhase (ratioLt ratioGt : ℤ → ℤ → ℤ → ℤ → Bool) (contrib : List ℤ)
    (num_processes total_image_count : ℤ) : List ℤ :=
  let num0 := reduceInitialAllocation contrib num_processes total_image_count
  let r1 := reduceAddLoop ratioLt contrib num_processes
    (num_processes - num0.sum).toNat num0 num0.sum
  (reduceRemoveLoop ratioGt contrib num_processes
    (r1.2 - num_processes).toNat r1.1 r1.2).1

theorem reduceFindMaxTile_fold (ratioLt : ℤ → ℤ → ℤ → ℤ → Bool) (contrib num : List ℤ)
    (hle : ∀ t, t < contrib.length → num.getD t 0 ≤ contrib.getD t 0) :
    ∀ (L : List ℕ) (acc : ℕ), (∀ t ∈ L, t < contrib.length) → acc < contrib.length →
      L.foldl (reduceFindMaxStep ratioLt contrib num) acc < contrib.length ∧
        (¬(num.getD (L.foldl (reduceFindMaxStep ratioLt contrib num) acc) 0 <
            contrib.getD (L.foldl (reduceFindMaxStep ratioLt contrib num) acc) 0) →
          ¬(num.getD acc 0 < contrib.getD acc 0) ∧
            ∀ t ∈ L, ¬(num.getD t 0 < contrib.getD t 0)) := by
  intro L
  induction L with
  | nil =>
    intro acc hL hacc
    exact ⟨hacc, fun h => ⟨h, by simp⟩⟩
  | cons t L ih =>
    intro acc hL hacc
    have htlen : t < contrib.length := hL t (by simp)
    simp only [List.foldl_cons]
    by_cases hcond : num.getD t 0 < contrib.getD t 0 ∧
        (num.getD acc 0 = contrib.getD acc 0 ∨
          ratioLt (contrib.getD acc 0) (num.getD acc 0)
            (contrib.getD t 0) (num.getD t 0))
    · have hstep : reduceFindMaxStep ratioLt contrib num acc t = t := by
        rw [reduceFindMaxStep, if_pos hcond]
      rw [hstep]
      obtain ⟨hres, hstuck⟩ := ih t (fun x hx => hL x (by simp [hx])) htlen
      refine ⟨hres, fun hno => ?_⟩
      exact absurd hcond.1 (hstuck hno).1
    · have hstep : reduceFindMaxStep ratioLt contrib num acc t = acc := by
        rw [reduceFindMaxStep, if_neg hcond]
      rw [hstep]
      obtain ⟨hres, hstuck⟩ := ih acc (fun x hx => hL x (by simp [hx])) hacc
      refine ⟨hres, fun hno => ?_⟩
      obtain ⟨hnacc, hnL⟩ := hstuck hno
      refine ⟨hnacc, ?_⟩
      intro x hx
      rcases List.mem_cons.mp hx with rfl | hxL
      · intro hxhead
        apply hcond
        refine ⟨hxhead, ?_⟩
        have := hle acc hacc
        left
        omega
      · exact hnL x hxL

theorem reduceFindMaxTile_spec (ratioLt : ℤ → ℤ → ℤ → ℤ → Bool) (contrib num : List ℤ)
    (hne : contrib ≠ [])
    (hle : ∀ t, t < contrib.length → num.getD t 0 ≤ contrib.getD t 0) :
    reduceFindMaxTile ratioLt contrib num < contrib.length ∧
      (¬(num.getD (reduceFindMaxTile ratioLt contrib num) 0 <
          contrib.getD (reduceFindMaxTile ratioLt contrib num) 0) →
        ∀ t, t < contrib.length → ¬(num.getD t 0 < contrib.getD t 0)) := by
  have hlen : 0 < contrib.length := List.length_pos.mpr hne
  have hrange : ∀ t ∈ List.range' 1 (contrib.length - 1), t < contrib.length := by
    intro t ht
    rw [List.mem_range'_1] at ht
    omega
  obtain ⟨hres, hstuck⟩ :=
    reduceFindMaxTile_fold ratioLt contrib num hle (List.range' 1 (contrib.length - 1)) 0
      hrange hlen
  refine ⟨hres, fun hno t ht => ?_⟩
  obtain ⟨h0, hL⟩ := hstuck hno
  rcases Nat.eq_zero_or_pos t with rfl | htpos
  · exact h0
  · exact hL t (by rw [List.mem_range'_1]; omega)

theorem reduceFindMinTile_lt_length (ratioGt : ℤ → ℤ → ℤ → ℤ → Bool)
    (contrib num : List ℤ) (hne : contrib ≠ []) :
    reduceFindMinTile ratioGt contrib num < contrib.length := by
  have hlen : 0 < contrib.length := List.length_pos.mpr hne
  rw [reduceFindMinTile]
  have : ∀ (L : List ℕ) (acc : ℕ), (∀ t ∈ L, t < contrib.length) → acc < contrib.length →
      L.foldl (reduceFindMinStep ratioGt contrib num) acc < contrib.length := by
    intro L
    induction L with
    | nil => exact fun acc _ hacc => hacc
    | cons t L ih =>
      intro acc hL hacc
      simp only [List.foldl_cons]
      rw [reduceFindMinStep]
      split
      · exact ih t (fun x hx => hL x (by simp [hx])) (hL t (by simp))
      · exact ih acc (fun x hx => hL x (by simp [hx])) hacc
  refine this _ 0 ?_ hlen
  intro t ht
  rw [List.mem_range'_1] at ht
  omega

theorem reduceInitialAllocation_length (contrib : List ℤ) (P total : ℤ) :
    (reduceInitialAllocation contrib P total).length = contrib.length := by
  simp [reduceInitialAllocation]

theorem reduceInitialAllocation_getD_bounds (contrib : List ℤ) (P total : ℤ)
    (hP : 0 ≤ P) (htotal : 0 < total) (t : ℕ) (ht : t < contrib.length)
    (hc : 0 ≤ contrib.getD t 0) :
    0 ≤ (reduceInitialAllocation contrib P total).getD t 0 ∧
      (reduceInitialAllocation contrib P total).getD t 0 ≤ contrib.getD t 0 := by
  rw [reduceInitialAllocation, list_getD_map _ _ _ ht]
  simp only
  set c := contrib.getD t 0 with hcdef
  have hdiv : 0 ≤ c * P / total := Int.ediv_nonneg (by positivity) (by omega)
  by_cases h1 : c * P / total < 1 ∧ 0 < c
  · rw [if_pos h1]
    split <;> omega
  · rw [if_neg h1]
    split <;> omega

theorem reduceAddLoop_spec (ratioLt : ℤ → ℤ → ℤ → ℤ → Bool) (contrib : List ℤ) (P : ℤ)
    (hne : contrib ≠ []) :
    ∀ (fuel : ℕ) (num : List ℤ) (pcount : ℤ),
      (P - pcount).toNat ≤ fuel →
      pcount = num.sum →
      num.length = contrib.length →
      (∀ t, t < contrib.length → num.getD t 0 ≤ contrib.getD t 0) →
      (reduceAddLoop ratioLt contrib P fuel num pcount).2 =
          (reduceAddLoop ratioLt contrib P fuel num pcount).1.sum ∧
        (reduceAddLoop ratioLt contrib P fuel num pcount).1.length = contrib.length ∧
        (∀ t, t < contrib.length →
          (reduceAddLoop ratioLt contrib P fuel num pcount).1.getD t 0 ≤ contrib.getD t 0) ∧
        ((reduceAddLoop ratioLt contrib P fuel num pcount).2 = P ∨
          (P < pcount ∧ reduceAddLoop ratioLt contrib P fuel num pcount = (num, pcount)) ∨
          ((reduceAddLoop ratioLt contrib P fuel num pcount).2 < P ∧
            ∀ t, t < contrib.length →
              contrib.getD t 0 ≤
                (reduceAddLoop ratioLt contrib P fuel num pcount).1.getD t 0)) := by
  intro fuel
  induction fuel with
  | zero =>
    intro num pcount hfuel hsum hlen hle
    have hPle : P ≤ pcount := by omega
    rw [reduceAddLoop]
    refine ⟨hsum, hlen, hle, ?_⟩
    rcases eq_or_lt_of_le hPle with heq | hlt
    · exact Or.inl heq.symm
    · exact Or.inr (Or.inl ⟨hlt, rfl⟩)
  | succ fuel ih =>
    intro num pcount hfuel hsum hlen hle
    rw [reduceAddLoop]
    by_cases hgt : P > pcount
    · rw [if_pos hgt]
      obtain ⟨hmlt, hstuck⟩ := reduceFindMaxTile_spec ratioLt contrib num hne hle
      set m := reduceFindMaxTile ratioLt contrib num with hm
      by_cases hhead : num.getD m 0 < contrib.getD m 0
      · rw [if_pos hhead]
        have hmnum : m < num.length := by omega
        have hsum' : pcount + 1 = (num.set m (num.getD m 0 + 1)).sum := by
          rw [list_sum_set num m _ hmnum]
          omega
        have hlen' : (num.set m (num.getD m 0 + 1)).length = contrib.length := by
          rw [List.length_set]
          exact hlen
        have hle' : ∀ t, t < contrib.length →
            (num.set m (num.getD m 0 + 1)).getD t 0 ≤ contrib.getD t 0 := by
          intro t ht
          rcases eq_or_ne m t with rfl | hne'
          · rw [list_getD_set_self num _ _ hmnum]
            omega
          · rw [list_getD_set_ne num _ _ _ hne']
            exact hle t ht
        have hfuel' : (P - (pcount + 1)).toNat ≤ fuel := by omega
        obtain ⟨c1, c2, c3, c4⟩ := ih _ _ hfuel' hsum' hlen' hle'
        refine ⟨c1, c2, c3, ?_⟩
        rcases c4 with h | ⟨hlt, _⟩ | h
        · exact Or.inl h
        · omega
        · exact Or.inr (Or.inr h)
      · rw [if_neg hhead]
        refine ⟨hsum, hlen, hle, Or.inr (Or.inr ⟨show pcount < P by omega, ?_⟩)⟩
        intro t ht
        show contrib.getD t 0 ≤ num.getD t 0
        have := hstuck hhead t ht
        omega
    · rw [if_neg hgt]
      refine ⟨hsum, hlen, hle, ?_⟩
      rcases eq_or_lt_of_le (by omega : P ≤ pcount) with heq | hlt
      · exact Or.inl heq.symm
      · exact Or.inr (Or.inl ⟨hlt, rfl⟩)

theorem reduceRemoveLoop_spec (ratioGt : ℤ → ℤ → ℤ → ℤ → Bool) (contrib : List ℤ) (P : ℤ)
    (hne : contrib ≠ []) :
    ∀ (fuel : ℕ) (num : List ℤ) (pcount : ℤ),
      (pcount - P).toNat ≤ fuel →
      pcount = num.sum →
      num.length = contrib.length →
      (reduceRemoveLoop ratioGt contrib P fuel num pcount).2 =
          (reduceRemoveLoop ratioGt contrib P fuel num pcount).1.sum ∧
        (reduceRemoveLoop ratioGt contrib P fuel num pcount).1.length = contrib.length ∧
        (reduceRemoveLoop ratioGt contrib P fuel num pcount).2 = min pcount P := by
  intro fuel
  induction fuel with
  | zero =>
    intro num pcount hfuel hsum hlen
    have : pcount ≤ P := by omega
    rw [reduceRemoveLoop]
    exact ⟨hsum, hlen, by omega⟩
  | succ fuel ih =>
    intro num pcount hfuel hsum hlen
    rw [reduceRemoveLoop]
    by_cases hlt : P < pcount
    · rw [if_pos hlt]
      have hmin : reduceFindMinTile ratioGt contrib num < contrib.length :=
        reduceFindMinTile_lt_length ratioGt contrib num hne
      set m := reduceFindMinTile ratioGt contrib num with hm
      have hmnum : m < num.length := by omega
      have hsum' : pcount - 1 = (num.set m (num.getD m 0 - 1)).sum := by
        rw [list_sum_set num m _ hmnum]
        omega
      have hlen' : (num.set m (num.getD m 0 - 1)).length = contrib.length := by
        rw [List.length_set]
        exact hlen
      obtain ⟨c1, c2, c3⟩ := ih _ _ (by omega) hsum' hlen'
      exact ⟨c1, c2, by omega⟩
    · rw [if_neg hlt]
      exact ⟨hsum, hlen, by omega⟩

/-- C7 (amended): after the allocation phase of `delegate` (reduce.c lines
211-268) the per-tile process counts sum to
`min num_processes total_image_count`, not always to `num_processes`: when
every tile is saturated (`num_proc_for_tile[t] = contrib_counts[t]` for all
`t`, i.e. `pcount = total_image_count < num_processes`) the add loop's
"Cannot assign any more processes" break (line 248) exits with fewer than
`num_processes` processes allocated.  The statement quantifies over the
float ratio comparators, so it covers whatever the IEEE float comparisons
at lines 237-238 and 260-261 evaluate to. -/
theorem reduce_allocation_sum (ratioLt ratioGt : ℤ → ℤ → ℤ → ℤ → Bool)
    (contrib : List ℤ) (num_processes total_image_count : ℤ)
    (hne : contrib ≠ []) (hc : ∀ c ∈ contrib, 0 ≤ c)
    (hP : 1 ≤ num_processes) (htotal : 1 ≤ total_image_count)
    (hsum : contrib.sum = total_image_count) :
    (reduceAllocatePhase ratioLt ratioGt contrib num_processes total_image_count).sum =
      min num_processes total_image_count := by
  rw [reduceAllocatePhase]
  set num0 := reduceInitialAllocation contrib num_processes total_image_count with hnum0
  have hlen0 : num0.length = contrib.length := reduceInitialAllocation_length _ _ _
  have hle0 : ∀ t, t < contrib.length → num0.getD t 0 ≤ contrib.getD t 0 := by
    intro t ht
    refine (reduceInitialAllocation_getD_bounds contrib _ _ (by omega) (by omega) t ht ?_).2
    rw [List.getD_eq_getElem _ _ ht]
    exact hc _ (List.getElem_mem ht)
  obtain ⟨a1, a2, a3, a4⟩ :=
    reduceAddLoop_spec ratioLt contrib num_processes hne
      (num_processes - num0.sum).toNat num0 num0.sum (le_refl _) rfl hlen0 hle0
  set r1 := reduceAddLoop ratioLt contrib num_processes
    (num_processes - num0.sum).toNat num0 num0.sum with hr1
  obtain ⟨b1, b2, b3⟩ :=
    reduceRemoveLoop_spec ratioGt contrib num_processes hne
      (r1.2 - num_processes).toNat r1.1 r1.2 (le_refl _) a1 a2
  have hres : (reduceRemoveLoop ratioGt contrib num_processes
      (r1.2 - num_processes).toNat r1.1 r1.2).1.sum = min r1.2 num_processes := by
    omega
  rw [hres]
  have hr1le : r1.1.sum ≤ contrib.sum := by
    refine list_sum_le_sum_of_getD r1.1 contrib a2 ?_
    intro t ht
    exact a3 t (by omega)
  rcases a4 with h | ⟨hlt, heq⟩ | ⟨hlt, hsat⟩
  · rw [h]
    have : num_processes ≤ total_image_count := by
      rw [← hsum, ← h]
      rw [a1]
      exact hr1le
    omega
  · have hnum0sum : num0.sum ≤ contrib.sum := by
      refine list_sum_le_sum_of_getD num0 contrib hlen0 ?_
      intro t ht
      exact hle0 t (by omega)
    rw [heq]
    simp only
    omega
  · have hgesum : contrib.sum ≤ r1.1.sum := by
      refine list_sum_le_sum_of_getD contrib r1.1 a2.symm ?_
      intro t ht
      exact hsat t ht
    have : r1.2 = total_image_count := by
      rw [a1, ← hsum]
      omega
    omega

/-- The exact-rational versions of the float ratio comparisons at reduce.c
lines 237-238 and 260-261 (valid cross-multiplied form for the positive
denominators the loops produce). -/
def reduceRatioLtExact : ℤ → ℤ → ℤ → ℤ → Bool :=
  fun c_max n_max c_tile n_tile => decide (c_max * n_tile < c_tile * n_max)

def reduceRatioGtExact : ℤ → ℤ → ℤ → ℤ → Bool :=
  fun c_min n_min c_tile n_tile => decide (c_tile * n_min < c_min * n_tile)

/-- C7 counterexample: with one tile, `contrib_counts = [1]`,
`total_image_count = 1` and `num_processes = 2` (one process renders the
only image, a second process is idle), the allocation phase assigns only 1
process in total — the add loop hits the "Cannot assign any more processes"
break — so the counts do not sum to `num_processes = 2` as C7 claims. -/
theorem reduce_allocation_sum_counterexample :
    (reduceAllocatePhase reduceRatioLtExact reduceRatioGtExact [1] 2 1).sum = 1 ∧
      (reduceAllocatePhase reduceRatioLtExact reduceRatioGtExact [1] 2 1).sum ≠ 2 ∧
      ([1] : List ℤ).sum = 1 ∧ (1 : ℤ) ≤ 2 := by
  refine ⟨?_, ?_, by decide, by decide⟩ <;> decide

theorem reduce_allocation_sum_witness :
    (([3, 1] : List ℤ) ≠ [] ∧ (∀ c ∈ ([3, 1] : List ℤ), 0 ≤ c) ∧ (1 : ℤ) ≤ 4 ∧
        (1 : ℤ) ≤ 4 ∧ ([3, 1] : List ℤ).sum = 4) ∧
      (reduceAllocatePhase reduceRatioLtExact reduceRatioGtExact [3, 1] 4 4).sum = min 4 4 :=
  ⟨⟨by decide, by decide, by decide, by decide, by decide⟩,
    reduce_allocation_sum reduceRatioLtExact reduceRatioGtExact [3, 1] 4 4
      (by decide) (by decide) (by decide) (by decide) (by decide)⟩

/-! ## Tree-composite engine (radixk.c lines 418-541)

`radixkTryCompositeIncoming` mutates, per partner index, the fields
`compositeLevel` (an `IceTInt`, -1 = not arrived) and `receiveImage` (an
`IceTSparseImage` handle), plus the local `spare_image` variable and the
count of `icetCompressedCompressedComposite` calls.  The sparse-image
*handles* are what the claim is about (which buffer each composite writes
into), so they are embedded as symbolic buffer names `RkBuf`; the pixel
contents are irrelevant to the claim and are not modelled.  Each composite
call is recorded as `(front_index, back_index, destination buffer)`. -/

inductive RkBuf
  | final
  | spare
  | null
  | send (i : ℕ)
  | recv (i : ℕ)
deriving DecidableEq

structure RkState where
  levels : ℕ → ℤ
  recvImg : ℕ → RkBuf
  spare : RkBuf
  composites : List (ℕ × ℕ × RkBuf)

/-- The `while (ICET_TRUE)` loop of `radixkTryCompositeIncoming` (radixk.c
lines 427-472).  `fuel` is an upper bound on the number of iterations; the
callers pass `(current_k+2)^2`, which the invariant proof shows is never
exhausted.  One iteration: read `level = compositeLevel[a]`,
`dist_to_sibling = 1 << level`, `subtree_size = dist_to_sibling << 1`; if
`a` is subtree-aligned and its sibling `a + dist` falls outside the group,
stop when `a = 0` (top of the tree) or promote the level and loop;
otherwise pair `(front, back)` as in lines 434-452, stop on a level
mismatch, else composite into `spare_image` — redirected to `final_image`
for the last composite (lines 461-465) — swap `receiveImage[front]` with
the spare, promote `front`, and continue from `front`. -/
def radixkTryCompositeLoop (current_k : ℕ) (final_image : RkBuf) :
    ℕ → RkState → ℕ → RkState
  | 0, s, _ => s
  | fuel + 1, s, to_composite_index =>
    let level := s.levels to_composite_index
    let dist_to_sibling := 2 ^ level.toNat
    let subtree_size := 2 * dist_to_sibling
    if to_composite_index % subtree_size = 0 ∧
        current_k ≤ to_composite_index + dist_to_sibling then
      (if to_composite_index = 0 then s
       else
        radixkTryCompositeLoop current_k final_image fuel
          { s with levels := Function.update s.levels to_composite_index (level + 1) }
          to_composite_index)
    else
      let front_index :=
        if to_composite_index % subtree_size = 0 then to_composite_index
        else to_composite_index - dist_to_sibling
      let back_index :=
        if to_composite_index % subtree_size = 0 then to_composite_index + dist_to_sibling
        else to_composite_index
      if s.levels front_index ≠ s.levels back_index then s
      else
        let dest :=
          if front_index = 0 ∧ current_k ≤ subtree_size then final_image else s.spare
        radixkTryCompositeLoop current_k final_image fuel
          { levels := Function.update s.levels front_index (s.levels front_index + 1)
            recvImg := Function.update s.recvImg front_index dest
            spare := s.recvImg front_index
            composites := s.composites ++ [(front_index, back_index, dest)] }
          front_index

/-- The return value of `radixkTryCompositeIncoming` (radixk.c line 475):
`(1 << partners[0].compositeLevel) >= current_k`.  When partner 0 has not
arrived its level is -1 and the C shift is undefined behavior; the tree
cannot be complete before partner 0 arrives (on IceT's targets the shifted
value is not a positive count ≥ current_k), so the embedding returns
`false` in that case. -/
def radixkCompositesDone (current_k : ℕ) (s : RkState) : Bool :=
  decide (0 ≤ s.levels 0 ∧ current_k ≤ 2 ^ (s.levels 0).toNat)

/-- The fuel passed to the try-composite loop; the invariant proof shows
the loop always breaks before using this many iterations. -/
def radixkEngineFuel (current_k : ℕ) : ℕ := (current_k + 2) * (current_k + 2)

/-- The body of the `while (!composites_done)` loop of
`radixkCompositeIncomingImages` (radixk.c lines 518-540): on completion of
the receive from partner `receive_idx`, set its composite level to 0, bind
its `receiveImage` to the image unpackaged from its receive buffer, and
drive the tree composite from that index. -/
def radixkCompositeStep (current_k : ℕ) (s : RkState) (receive_idx : ℕ) : RkState :=
  radixkTryCompositeLoop current_k RkBuf.final (radixkEngineFuel current_k)
    { s with
      levels := Function.update s.levels receive_idx 0
      recvImg := Function.update s.recvImg receive_idx (RkBuf.recv receive_idx) }
    receive_idx

/-- The `while (!composites_done)` loop itself, driven by `arrival_order`:
the order in which `icetCommWaitany` reports the k-1 partner receives.
Returns the final state and the last `composites_done` value (`false` only
if the arrival order ran out before the tree completed, which cannot happen
for a full arrival order). -/
def radixkWaitLoop (current_k : ℕ) : List ℕ → RkState → RkState × Bool
  | arrivals, s =>
    if radixkCompositesDone current_k s then (s, true)
    else
      match arrivals with
      | [] => (s, false)
      | a :: rest => radixkWaitLoop current_k rest (radixkCompositeStep current_k s a)

/-- `radixkCompositeIncomingImages` (radixk.c lines 478-541).  The initial
state is the one left by `radixkPostReceives` (lines 328-343): every
partner's level is -1 except the caller's own partition index, whose
`receiveImage` aliases its `sendImage` and whose level is 0; the spare
image is allocated only when at least two composites will happen (lines
501-507), otherwise it is the null image.  Then the self slot is
try-composited (lines 512-516) and the wait loop runs. -/
def radixkCompositeIncomingImages (current_k current_partition_index : ℕ)
    (arrival_order : List ℕ) : RkState × Bool :=
  let s0 : RkState :=
    { levels := fun i => if i = current_partition_index then 0 else -1
      recvImg := fun i => if i = current_partition_index then RkBuf.send i else RkBuf.null
      spare := if 2 ≤ current_k - 1 then RkBuf.spare else RkBuf.null
      composites := [] }
  radixkWaitLoop current_k arrival_order
    (radixkTryCompositeLoop current_k RkBuf.final (radixkEngineFuel current_k) s0
      current_partition_index)

/-! ### Invariants of the tree-composite engine

A partner index with non-negative level is *arrived*.  A ghost set `R` of
*roots* tracks which indices currently own a composited block: root `r` at
level `ℓ` owns the aligned index block `[r, r + 2^ℓ)` (truncated at `k`).
Merged-away indices keep their stale level, which always equals their 2-adic
valuation. -/

def rkLvl (s : RkState) (i : ℕ) : ℕ := (s.levels i).toNat

def rkInBlock (s : RkState) (r i : ℕ) : Prop := r ≤ i ∧ i < r + 2 ^ rkLvl s r

structure RkInv (k : ℕ) (s : RkState) (R : Finset ℕ) : Prop where
  roots_lt : ∀ r ∈ R, r < k
  roots_arrived : ∀ r ∈ R, 0 ≤ s.levels r
  align : ∀ r ∈ R, 2 ^ rkLvl s r ∣ r
  cover : ∀ i, i < k → (0 ≤ s.levels i ↔ ∃ r ∈ R, rkInBlock s r i)
  disj : ∀ r ∈ R, ∀ r' ∈ R, r < r' → r + 2 ^ rkLvl s r ≤ r'
  stale : ∀ i, i < k → 0 ≤ s.levels i → i ∉ R →
    2 ^ rkLvl s i ∣ i ∧ ¬(2 ^ (rkLvl s i + 1) ∣ i)
  lvl_zero : 0 ∈ R → 2 ^ rkLvl s 0 ≤ 2 * k
  count : s.composites.length + R.card =
    ((Finset.range k).filter (fun i => 0 ≤ s.levels i)).card

/-- Index `r` would take the promote branch (radixk.c lines 438-447 with
`front_index ≠ 0`). -/
def rkPromotable (k : ℕ) (s : RkState) (r : ℕ) : Prop :=
  r ≠ 0 ∧ 2 ^ (rkLvl s r + 1) ∣ r ∧ k ≤ r + 2 ^ rkLvl s r

/-- The sibling index `r` would pair with (radixk.c lines 434-452). -/
def rkPaired (s : RkState) (r : ℕ) : ℕ :=
  if 2 ^ (rkLvl s r + 1) ∣ r then r + 2 ^ rkLvl s r else r - 2 ^ rkLvl s r

/-- Index `r` would composite with its sibling: the sibling is inside the
group and the levels match (radixk.c lines 438, 454-459). -/
def rkMergeable (k : ℕ) (s : RkState) (r : ℕ) : Prop :=
  if 2 ^ (rkLvl s r + 1) ∣ r then
    r + 2 ^ rkLvl s r < k ∧ s.levels (r + 2 ^ rkLvl s r) = s.levels r
  else
    s.levels (r - 2 ^ rkLvl s r) = s.levels r

/-- Quiescence except possibly at `x`: every other root is neither
promotable nor mergeable with anything but `x`. -/
def RkQuietE (k : ℕ) (s : RkState) (R : Finset ℕ) (x : ℕ) : Prop :=
  ∀ r ∈ R, r ≠ x →
    ¬rkPromotable k s r ∧ (rkMergeable k s r → rkPaired s r = x)

/-- Full quiescence: no root can promote or composite. -/
def RkQuiet (k : ℕ) (s : RkState) (R : Finset ℕ) : Prop :=
  ∀ r ∈ R, ¬rkPromotable k s r ∧ ¬rkMergeable k s r

/-- Where composite results land: every composite before the last writes
into a non-final buffer, the engine is complete iff the last recorded
composite wrote into `final_image`, and while incomplete neither the spare
nor any `receiveImage` aliases `final_image`. -/
def RkDestInv (k : ℕ) (s : RkState) : Prop :=
  (∀ c ∈ s.composites.dropLast, c.2.2 ≠ RkBuf.final) ∧
    (radixkCompositesDone k s = true ↔
      ∃ l, s.composites.getLast? = some l ∧ l.2.2 = RkBuf.final) ∧
    (radixkCompositesDone k s = false →
      s.spare ≠ RkBuf.final ∧ ∀ i, s.recvImg i ≠ RkBuf.final)

theorem rk_two_pow_le_bound {x k : ℕ} (h : 2 ^ x ≤ 2 * k) : x ≤ k + 1 := by
  by_contra hx
  have h1 : 2 ^ (k + 2) ≤ 2 ^ x := Nat.pow_le_pow_right (by norm_num) (by omega)
  have h2 : k < 2 ^ k := Nat.lt_two_pow k
  have h3 : 2 ^ (k + 2) = 2 ^ k * 4 := by ring
  omega

theorem rk_exact_val_succ {f l : ℕ} (h : 2 ^ (l + 1) ∣ f) :
    2 ^ l ∣ f + 2 ^ l ∧ ¬(2 ^ (l + 1) ∣ f + 2 ^ l) := by
  constructor
  · exact Nat.dvd_add (dvd_trans (pow_dvd_pow 2 (by omega)) h) dvd_rfl
  · intro hdvd
    have hpow : (2 : ℕ) ^ (l + 1) ∣ f + 2 ^ l - f := Nat.dvd_sub' hdvd h
    have heq : f + 2 ^ l - f = 2 ^ l := by omega
    rw [heq] at hpow
    have h1 : (2 : ℕ) ^ (l + 1) ≤ 2 ^ l := Nat.le_of_dvd (by positivity) hpow
    have h2 : (2 : ℕ) ^ l < 2 ^ (l + 1) := Nat.pow_lt_pow_right (by norm_num) (by omega)
    omega

theorem rk_sub_pow_aligned {a l : ℕ} (h1 : 2 ^ l ∣ a) (h2 : ¬(2 ^ (l + 1) ∣ a)) :
    2 ^ (l + 1) ∣ a - 2 ^ l := by
  obtain ⟨q, rfl⟩ := h1
  have hq : ¬(2 ∣ q) := by
    rintro ⟨t, rfl⟩
    exact h2 ⟨t, by ring⟩
  obtain ⟨t, rfl⟩ : ∃ t, q = 2 * t + 1 := ⟨q / 2, by omega⟩
  refine ⟨t, ?_⟩
  have hexp : 2 ^ l * (2 * t + 1) = 2 ^ (l + 1) * t + 2 ^ l := by ring
  omega

theorem rk_window_eq {x r l : ℕ} (hx : 2 ^ l ∣ x) (hr : 2 ^ l ∣ r) (hle : x ≤ r)
    (hlt : r < x + 2 ^ l) : x = r := by
  have hd : 2 ^ l ∣ r - x := Nat.dvd_sub' hr hx
  have hz : r - x = 0 := Nat.eq_zero_of_dvd_of_lt hd (by omega)
  omega

theorem rk_add_pow_aligned {a l : ℕ} (h1 : 2 ^ l ∣ a) (h2 : ¬(2 ^ (l + 1) ∣ a)) :
    2 ^ (l + 1) ∣ a + 2 ^ l := by
  obtain ⟨q, rfl⟩ := h1
  have hq : ¬(2 ∣ q) := by
    rintro ⟨t, rfl⟩
    exact h2 ⟨t, by ring⟩
  obtain ⟨t, rfl⟩ : ∃ t, q = 2 * t + 1 := ⟨q / 2, by omega⟩
  exact ⟨t + 1, by ring⟩

theorem rkInBlock_self (s : RkState) (r : ℕ) : rkInBlock s r r :=
  ⟨le_rfl, by have : 0 < 2 ^ rkLvl s r := Nat.pos_pow_of_pos _ (by norm_num); omega⟩

theorem RkInv.block_unique {k : ℕ} {s : RkState} {R : Finset ℕ} (hInv : RkInv k s R)
    {r r' i : ℕ} (hr : r ∈ R) (hr' : r' ∈ R) (hi : rkInBlock s r i)
    (hi' : rkInBlock s r' i) : r = r' := by
  rcases lt_trichotomy r r' with h | h | h
  · have := hInv.disj r hr r' hr' h
    obtain ⟨h1, h2⟩ := hi
    obtain ⟨h1', h2'⟩ := hi'
    omega
  · exact h
  · have := hInv.disj r' hr' r hr h
    obtain ⟨h1, h2⟩ := hi
    obtain ⟨h1', h2'⟩ := hi'
    omega

theorem RkInv.zero_mem {k : ℕ} {s : RkState} {R : Finset ℕ} (hInv : RkInv k s R)
    (hk : 0 < k) (h0 : 0 ≤ s.levels 0) : 0 ∈ R := by
  obtain ⟨r, hrR, hle, -⟩ := (hInv.cover 0 hk).mp h0
  have : r = 0 := by omega
  exact this ▸ hrR

theorem rk_levels_eq_of_lvl_eq {s : RkState} {i j : ℕ} (h1 : 0 ≤ s.levels i)
    (h2 : 0 ≤ s.levels j) (h3 : rkLvl s i = rkLvl s j) : s.levels i = s.levels j := by
  unfold rkLvl at h3
  omega

theorem RkInv.lvl_bound {k : ℕ} {s : RkState} {R : Finset ℕ} (hInv : RkInv k s R)
    {r : ℕ} (hr : r ∈ R) : 2 ^ rkLvl s r ≤ 2 * k := by
  rcases Nat.eq_zero_or_pos r with rfl | hpos
  · exact hInv.lvl_zero hr
  · have h1 : 2 ^ rkLvl s r ≤ r := Nat.le_of_dvd hpos (hInv.align r hr)
    have h2 : r < k := hInv.roots_lt r hr
    omega

/-- The partner that a mergeable root would composite with is itself a root
at the same level. -/
theorem rkMergeable_paired_mem {k : ℕ} {s : RkState} {R : Finset ℕ} (hInv : RkInv k s R)
    {r : ℕ} (hr : r ∈ R) (hm : rkMergeable k s r) :
    rkPaired s r ∈ R ∧ s.levels (rkPaired s r) = s.levels r := by
  by_cases hal : 2 ^ (rkLvl s r + 1) ∣ r
  · rw [rkMergeable, if_pos hal] at hm
    obtain ⟨hbk, hlev⟩ := hm
    rw [rkPaired, if_pos hal]
    refine ⟨?_, hlev⟩
    have hbarr : 0 ≤ s.levels (r + 2 ^ rkLvl s r) := by
      rw [hlev]
      exact hInv.roots_arrived r hr
    obtain ⟨r'', hr''R, hin⟩ := (hInv.cover _ hbk).mp hbarr
    rcases lt_trichotomy r'' r with h | h | h
    · exfalso
      have hd := hInv.disj r'' hr''R r hr h
      obtain ⟨h1, h2⟩ := hin
      have : 0 < 2 ^ rkLvl s r := Nat.pos_pow_of_pos _ (by norm_num)
      omega
    · exfalso
      subst h
      obtain ⟨h1, h2⟩ := hin
      omega
    · have hd := hInv.disj r hr r'' hr''R h
      obtain ⟨h1, h2⟩ := hin
      have : r'' = r + 2 ^ rkLvl s r := by omega
      exact this ▸ hr''R
  · rw [rkMergeable, if_neg hal] at hm
    rw [rkPaired, if_neg hal]
    have hr0 : r ≠ 0 := by
      rintro rfl
      exact hal (dvd_zero _)
    have halr : 2 ^ rkLvl s r ∣ r := hInv.align r hr
    have hger : 2 ^ rkLvl s r ≤ r := Nat.le_of_dvd (by omega) halr
    have hparr : 0 ≤ s.levels (r - 2 ^ rkLvl s r) := by
      rw [hm]
      exact hInv.roots_arrived r hr
    have hpk : r - 2 ^ rkLvl s r < k := by
      have := hInv.roots_lt r hr
      omega
    refine ⟨?_, hm⟩
    by_contra hpR
    obtain ⟨-, hnst⟩ := hInv.stale _ hpk hparr hpR
    have hlvlp : rkLvl s (r - 2 ^ rkLvl s r) = rkLvl s r := by
      unfold rkLvl at hm ⊢
      omega
    rw [hlvlp] at hnst
    exact hnst (rk_sub_pow_aligned halr hal)

/-- Sibling pairing at equal levels is symmetric: if root `r` would merge
with `p = rkPaired r`, then `p` would merge back with `r`. -/
theorem rkMergeable_symm {k : ℕ} {s : RkState} {R : Finset ℕ} (hInv : RkInv k s R)
    {r : ℕ} (hr : r ∈ R) (hm : rkMergeable k s r) :
    rkPaired s (rkPaired s r) = r ∧ rkMergeable k s (rkPaired s r) := by
  obtain ⟨hpR, hlev⟩ := rkMergeable_paired_mem hInv hr hm
  have harr : 0 ≤ s.levels r := hInv.roots_arrived r hr
  have hparr : 0 ≤ s.levels (rkPaired s r) := hlev ▸ harr
  have hlvlp : rkLvl s (rkPaired s r) = rkLvl s r := by
    unfold rkLvl
    omega
  by_cases hal : 2 ^ (rkLvl s r + 1) ∣ r
  · have hp : rkPaired s r = r + 2 ^ rkLvl s r := by rw [rkPaired, if_pos hal]
    have hex := rk_exact_val_succ hal
    have hnal : ¬(2 ^ (rkLvl s (rkPaired s r) + 1) ∣ rkPaired s r) := by
      rw [hlvlp, hp]
      exact hex.2
    constructor
    · rw [rkPaired, if_neg hnal, hlvlp, hp]
      omega
    · rw [rkMergeable, if_neg hnal, hlvlp, hp]
      have : r + 2 ^ rkLvl s r - 2 ^ rkLvl s r = r := by omega
      rw [this, ← hp, hlev]
  · have hr0 : r ≠ 0 := by
      rintro rfl
      exact hal (dvd_zero _)
    have halr : 2 ^ rkLvl s r ∣ r := hInv.align r hr
    have hger : 2 ^ rkLvl s r ≤ r := Nat.le_of_dvd (by omega) halr
    have hp : rkPaired s r = r - 2 ^ rkLvl s r := by rw [rkPaired, if_neg hal]
    have hpal : 2 ^ (rkLvl s (rkPaired s r) + 1) ∣ rkPaired s r := by
      rw [hlvlp, hp]
      exact rk_sub_pow_aligned halr hal
    constructor
    · rw [rkPaired, if_pos hpal, hlvlp, hp]
      omega
    · rw [rkMergeable, if_pos hpal, hlvlp, hp]
      have heq : r - 2 ^ rkLvl s r + 2 ^ rkLvl s r = r := by omega
      rw [heq]
      exact ⟨hInv.roots_lt r hr, by rw [← hp, hlev]⟩

/-- Once the completion test holds, the only root is 0. -/
theorem RkInv.done_eq {k : ℕ} {s : RkState} {R : Finset ℕ} (hInv : RkInv k s R)
    (hk : 0 < k) (hdone : radixkCompositesDone k s = true) : R = {0} := by
  rw [radixkCompositesDone, decide_eq_true_iff] at hdone
  obtain ⟨h0arr, h0lvl⟩ := hdone
  have h0lvl2 : k ≤ 2 ^ rkLvl s 0 := h0lvl
  have h0R : 0 ∈ R := hInv.zero_mem hk h0arr
  ext r
  simp only [Finset.mem_singleton]
  constructor
  · intro hrR
    by_contra hne
    have := hInv.disj 0 h0R r hrR (by omega)
    have := hInv.roots_lt r hrR
    omega
  · rintro rfl
    exact h0R

/-- A fully quiescent state in which every index has arrived is complete. -/
theorem rkQuiet_done {k : ℕ} {s : RkState} {R : Finset ℕ} (hInv : RkInv k s R)
    (hq : RkQuiet k s R) (hk : 0 < k) (hall : ∀ i, i < k → 0 ≤ s.levels i) :
    radixkCompositesDone k s = true := by
  have h0R : 0 ∈ R := hInv.zero_mem hk (hall 0 hk)
  obtain ⟨r, hrR, hmin⟩ := R.exists_min_image (rkLvl s) ⟨0, h0R⟩
  have harr : 0 ≤ s.levels r := hInv.roots_arrived r hrR
  by_cases hal : 2 ^ (rkLvl s r + 1) ∣ r
  · by_cases hbk : r + 2 ^ rkLvl s r < k
    · exfalso
      have hbarr : 0 ≤ s.levels (r + 2 ^ rkLvl s r) := hall _ hbk
      have hex := rk_exact_val_succ hal
      have hlvlb : rkLvl s (r + 2 ^ rkLvl s r) = rkLvl s r := by
        by_cases hbR : r + 2 ^ rkLvl s r ∈ R
        · have h1 := hInv.align _ hbR
          have h2 : rkLvl s (r + 2 ^ rkLvl s r) ≤ rkLvl s r := by
            by_contra hgt
            exact hex.2 (dvd_trans (pow_dvd_pow 2 (by omega)) h1)
          have h3 := hmin _ hbR
          omega
        · obtain ⟨h1, h2⟩ := hInv.stale _ hbk hbarr hbR
          have h3 : rkLvl s (r + 2 ^ rkLvl s r) ≤ rkLvl s r := by
            by_contra hgt
            exact hex.2 (dvd_trans (pow_dvd_pow 2 (by omega)) h1)
          have h4 : rkLvl s r ≤ rkLvl s (r + 2 ^ rkLvl s r) := by
            by_contra hgt
            exact h2 (dvd_trans (pow_dvd_pow 2 (by omega)) hex.1)
          omega
      have hqr := (hq r hrR).2
      rw [rkMergeable, if_pos hal] at hqr
      exact hqr ⟨hbk, rk_levels_eq_of_lvl_eq hbarr harr hlvlb⟩
    · have hr0 : r = 0 := by
        by_contra hne
        exact (hq r hrR).1 ⟨hne, hal, by omega⟩
      subst hr0
      rw [radixkCompositesDone, decide_eq_true_iff]
      refine ⟨harr, ?_⟩
      show k ≤ 2 ^ rkLvl s 0
      omega
  · exfalso
    have hr0 : r ≠ 0 := by
      rintro rfl
      exact hal (dvd_zero _)
    have halr : 2 ^ rkLvl s r ∣ r := hInv.align r hrR
    have hger : 2 ^ rkLvl s r ≤ r := Nat.le_of_dvd (by omega) halr
    have hrk : r < k := hInv.roots_lt r hrR
    have hfk : r - 2 ^ rkLvl s r < k := by omega
    have hfarr := hall _ hfk
    obtain ⟨r'', hr''R, hin⟩ := (hInv.cover _ hfk).mp hfarr
    have hLmin := hmin r'' hr''R
    have hr''r : r'' < r := by
      obtain ⟨h1, h2⟩ := hin
      omega
    have hdisj := hInv.disj r'' hr''R r hrR hr''r
    have halr'' := hInv.align r'' hr''R
    have hend : r'' + 2 ^ rkLvl s r'' = r := by
      refine rk_window_eq (l := rkLvl s r) ?_ halr hdisj ?_
      · exact Nat.dvd_add (dvd_trans (pow_dvd_pow 2 hLmin) halr'')
          (pow_dvd_pow 2 hLmin)
      · obtain ⟨h1, h2⟩ := hin
        omega
    by_cases hall2 : 2 ^ (rkLvl s r'' + 1) ∣ r''
    · have hex := rk_exact_val_succ hall2
      rw [hend] at hex
      have hLl : rkLvl s r'' = rkLvl s r := by
        have h1 : rkLvl s r'' ≤ rkLvl s r := by
          by_contra hgt
          exact hal (dvd_trans (pow_dvd_pow 2 (by omega)) hex.1)
        omega
      have hr''f : r'' = r - 2 ^ rkLvl s r := by
        rw [hLl] at hend
        omega
      have hqr := (hq r hrR).2
      rw [rkMergeable, if_neg hal] at hqr
      apply hqr
      refine rk_levels_eq_of_lvl_eq ?_ harr ?_
      · rw [← hr''f]
        exact hInv.roots_arrived r'' hr''R
      · rw [← hr''f, hLl]
    · have hdr : 2 ^ (rkLvl s r'' + 1) ∣ r := by
        rw [← hend]
        exact rk_add_pow_aligned halr'' hall2
      exact hal (dvd_trans (pow_dvd_pow 2 (by omega)) hdr)

theorem rkPaired_congr {s t : RkState} {r : ℕ} (hlvl : rkLvl t r = rkLvl s r) :
    rkPaired t r = rkPaired s r := by
  rw [rkPaired, rkPaired, hlvl]

theorem rkPromotable_congr {k : ℕ} {s t : RkState} {r : ℕ}
    (hlvl : rkLvl t r = rkLvl s r) : rkPromotable k t r ↔ rkPromotable k s r := by
  rw [rkPromotable, rkPromotable, hlvl]

theorem rkMergeable_congr {k : ℕ} {s t : RkState} {r : ℕ}
    (hlvl : rkLvl t r = rkLvl s r)
    (hlevr : t.levels r = s.levels r)
    (hlevp : t.levels (rkPaired s r) = s.levels (rkPaired s r)) :
    rkMergeable k t r ↔ rkMergeable k s r := by
  rw [rkMergeable, rkMergeable, hlvl]
  by_cases hdv : 2 ^ (rkLvl s r + 1) ∣ r
  · rw [if_pos hdv, if_pos hdv]
    have hpr : rkPaired s r = r + 2 ^ rkLvl s r := by rw [rkPaired, if_pos hdv]
    rw [← hpr, hlevp, hlevr]
  · rw [if_neg hdv, if_neg hdv]
    have hpr : rkPaired s r = r - 2 ^ rkLvl s r := by rw [rkPaired, if_neg hdv]
    rw [← hpr, hlevp, hlevr]

/-- If the examined root can neither promote nor composite, the whole state
is quiescent: any other root's pending merge would have to be with the
examined index, and pairing symmetry turns that into a merge opportunity at
the examined index itself. -/
theorem rk_quiet_of_break {k : ℕ} {s : RkState} {R : Finset ℕ} {a : ℕ}
    (hInv : RkInv k s R) (haR : a ∈ R) (hQE : RkQuietE k s R a)
    (hnp : ¬rkPromotable k s a) (hnm : ¬rkMergeable k s a) : RkQuiet k s R := by
  intro r hrR
  by_cases hra : r = a
  · exact hra ▸ ⟨hnp, hnm⟩
  · obtain ⟨h1, h2⟩ := hQE r hrR hra
    refine ⟨h1, fun hm => ?_⟩
    have hpr := h2 hm
    obtain ⟨hsym1, hsym2⟩ := rkMergeable_symm hInv hrR hm
    rw [hpr] at hsym1 hsym2
    exact hnm hsym2

/-- Effect of the promote branch (radixk.c lines 438-447, `front_index ≠ 0`)
on the invariants. -/
theorem rk_promote_step {k : ℕ} {s : RkState} {R : Finset ℕ} {a : ℕ}
    (hInv : RkInv k s R) (haR : a ∈ R) (hQE : RkQuietE k s R a)
    (hD : RkDestInv k s)
    (ha0 : a ≠ 0) (hal : 2 ^ (rkLvl s a + 1) ∣ a) (hout : k ≤ a + 2 ^ rkLvl s a) :
    RkInv k { s with levels := Function.update s.levels a (s.levels a + 1) } R ∧
      RkQuietE k { s with levels := Function.update s.levels a (s.levels a + 1) } R a ∧
      RkDestInv k { s with levels := Function.update s.levels a (s.levels a + 1) } ∧
      (∀ i, 0 ≤ Function.update s.levels a (s.levels a + 1) i ↔ 0 ≤ s.levels i) ∧
      rkLvl { s with levels := Function.update s.levels a (s.levels a + 1) } a =
        rkLvl s a + 1 := by
  have harr : 0 ≤ s.levels a := hInv.roots_arrived a haR
  set s' : RkState := { s with levels := Function.update s.levels a (s.levels a + 1) }
    with hs'
  have hlev' : ∀ j, s'.levels j = if j = a then s.levels a + 1 else s.levels j := by
    intro j
    simp [hs', Function.update_apply]
  have hlvl' : ∀ j, rkLvl s' j = if j = a then rkLvl s a + 1 else rkLvl s j := by
    intro j
    unfold rkLvl
    rw [hlev' j]
    split <;> omega
  have harr' : ∀ i, 0 ≤ s'.levels i ↔ 0 ≤ s.levels i := by
    intro i
    rw [hlev' i]
    by_cases hia : i = a
    · subst hia
      rw [if_pos rfl]
      omega
    · rw [if_neg hia]
  have hlvla : rkLvl s' a = rkLvl s a + 1 := by rw [hlvl' a, if_pos rfl]
  have hlvlne : ∀ j, j ≠ a → rkLvl s' j = rkLvl s j := by
    intro j hj
    rw [hlvl' j, if_neg hj]
  refine ⟨?_, ?_, ?_, harr', hlvla⟩
  · refine ⟨hInv.roots_lt, ?_, ?_, ?_, ?_, ?_, ?_, ?_⟩
    · intro r hr
      rw [harr' r]
      exact hInv.roots_arrived r hr
    · intro r hr
      by_cases hra : r = a
      · subst hra
        rw [hlvla, pow_succ]
        calc (2:ℕ) ^ (rkLvl s r) * 2 = 2 ^ (rkLvl s r + 1) := by ring
        _ ∣ r := hal
      · rw [hlvlne r hra]
        exact hInv.align r hr
    · intro i hik
      rw [harr' i, hInv.cover i hik]
      constructor
      · rintro ⟨r, hrR, hin1, hin2⟩
        refine ⟨r, hrR, hin1, ?_⟩
        by_cases hra : r = a
        · subst hra
          rw [hlvla]
          have : (2:ℕ) ^ rkLvl s r ≤ 2 ^ (rkLvl s r + 1) :=
            Nat.pow_le_pow_right (by norm_num) (by omega)
          omega
        · rw [hlvlne r hra]
          exact hin2
      · rintro ⟨r, hrR, hin1, hin2⟩
        refine ⟨r, hrR, hin1, ?_⟩
        by_cases hra : r = a
        · subst hra
          omega
        · rw [hlvlne r hra] at hin2
          exact hin2
    · intro r hr r' hr' hlt
      by_cases hra : r = a
      · subst hra
        exfalso
        have h1 := hInv.disj r hr r' hr' hlt
        have h2 := hInv.roots_lt r' hr'
        omega
      · rw [hlvlne r hra]
        exact hInv.disj r hr r' hr' hlt
    · intro i hik hiarr hiR
      rw [harr' i] at hiarr
      have hia : i ≠ a := fun h => hiR (h ▸ haR)
      rw [hlvlne i hia]
      exact hInv.stale i hik hiarr hiR
    · intro h0R
      rw [hlvlne 0 (Ne.symm ha0)]
      exact hInv.lvl_zero h0R
    · have : s'.composites = s.composites := rfl
      rw [this]
      have hfil : ((Finset.range k).filter (fun i => 0 ≤ s'.levels i)) =
          ((Finset.range k).filter (fun i => 0 ≤ s.levels i)) := by
        apply Finset.filter_congr
        intro i _
        simp [harr' i]
      rw [hfil]
      exact hInv.count
  · intro r hrR hra
    obtain ⟨h1, h2⟩ := hQE r hrR hra
    have hlvlr : rkLvl s' r = rkLvl s r := hlvlne r hra
    have hlevr : s'.levels r = s.levels r := by rw [hlev' r, if_neg hra]
    constructor
    · intro hpr'
      exact h1 ((rkPromotable_congr hlvlr).mp hpr')
    · intro hm'
      rw [rkPaired_congr hlvlr]
      by_cases hpa : rkPaired s r = a
      · exact hpa
      · have hlevp : s'.levels (rkPaired s r) = s.levels (rkPaired s r) := by
          rw [hlev' (rkPaired s r), if_neg hpa]
        exact h2 ((rkMergeable_congr hlvlr hlevr hlevp).mp hm')
  · obtain ⟨hd1, hd2, hd3⟩ := hD
    have hcomps : s'.composites = s.composites := rfl
    have hdone' : radixkCompositesDone k s' = radixkCompositesDone k s := by
      rw [radixkCompositesDone, radixkCompositesDone]
      have : s'.levels 0 = s.levels 0 := by rw [hlev' 0, if_neg (Ne.symm ha0)]
      rw [this]
    refine ⟨?_, ?_, ?_⟩
    · rw [hcomps]
      exact hd1
    · rw [hcomps, hdone']
      exact hd2
    · rw [hdone']
      intro hfalse
      exact hd3 hfalse

theorem list_forall_of_dropLast_getLast {α : Type} (P : α → Prop) :
    ∀ (L : List α), (∀ c ∈ L.dropLast, P c) → (∀ l, L.getLast? = some l → P l) →
      ∀ c ∈ L, P c := by
  intro L
  induction L with
  | nil => intro _ _ c hc; simp at hc
  | cons x t ih =>
    intro h1 h2 c hc
    cases t with
    | nil =>
      simp at hc
      subst hc
      exact h2 c rfl
    | cons y u =>
      rcases List.mem_cons.mp hc with rfl | hct
      · exact h1 c (by simp [List.dropLast])
      · refine ih ?_ ?_ c hct
        · intro d hd
          exact h1 d (by simp [List.dropLast, hd])
        · intro l hl
          exact h2 l (by rw [List.getLast?_cons_cons]; exact hl)

/-- Effect of one composite (radixk.c lines 454-471) on the invariants:
the pair `(f, b)` with `b = f + 2^ℓ` at equal levels `ℓ` merges, `f` is
promoted to level `ℓ+1`, `b` leaves the root set, the composite is recorded
with its destination buffer, and `receiveImage[f]` swaps with the spare. -/
theorem rk_composite_step {k : ℕ} {s : RkState} {R : Finset ℕ} {a f b : ℕ} {dest : RkBuf}
    (hInv : RkInv k s R) (hQE : RkQuietE k s R a) (hD : RkDestInv k s)
    (hk : 2 ≤ k)
    (hfR : f ∈ R) (hbR : b ∈ R)
    (hfb : b = f + 2 ^ rkLvl s f)
    (hlev : s.levels b = s.levels f)
    (hfal : 2 ^ (rkLvl s f + 1) ∣ f)
    (hbk : b < k)
    (ha : a = f ∨ a = b)
    (hdest : dest = if f = 0 ∧ k ≤ 2 ^ (rkLvl s f + 1) then RkBuf.final else s.spare) :
    RkInv k { levels := Function.update s.levels f (s.levels f + 1)
              recvImg := Function.update s.recvImg f dest
              spare := s.recvImg f
              composites := s.composites ++ [(f, b, dest)] } (R.erase b) ∧
      f ∈ R.erase b ∧
      RkQuietE k { levels := Function.update s.levels f (s.levels f + 1)
                   recvImg := Function.update s.recvImg f dest
                   spare := s.recvImg f
                   composites := s.composites ++ [(f, b, dest)] } (R.erase b) f ∧
      RkDestInv k { levels := Function.update s.levels f (s.levels f + 1)
                    recvImg := Function.update s.recvImg f dest
                    spare := s.recvImg f
                    composites := s.composites ++ [(f, b, dest)] } ∧
      (∀ i, 0 ≤ Function.update s.levels f (s.levels f + 1) i ↔ 0 ≤ s.levels i) ∧
      rkLvl { levels := Function.update s.levels f (s.levels f + 1)
              recvImg := Function.update s.recvImg f dest
              spare := s.recvImg f
              composites := s.composites ++ [(f, b, dest)] } f = rkLvl s f + 1 := by
  have harrf : 0 ≤ s.levels f := hInv.roots_arrived f hfR
  have harrb : 0 ≤ s.levels b := hInv.roots_arrived b hbR
  have hpow : (0:ℕ) < 2 ^ rkLvl s f := Nat.pos_pow_of_pos _ (by norm_num)
  have hfb2 : f < b := by omega
  have hfk : f < k := hInv.roots_lt f hfR
  have hlevb : rkLvl s b = rkLvl s f := by unfold rkLvl; omega
  have hex := rk_exact_val_succ hfal
  rw [← hfb] at hex
  have hnotdone : radixkCompositesDone k s = false := by
    rcases hdone : radixkCompositesDone k s with - | -
    · rfl
    · exfalso
      have := hInv.done_eq (by omega) hdone
      rw [this] at hbR
      simp at hbR
      omega
  obtain ⟨hd1, hd2, hd3⟩ := hD
  obtain ⟨hspare_ne, hrecv_ne⟩ := hd3 hnotdone
  have hdest_iff : dest = RkBuf.final ↔ (f = 0 ∧ k ≤ 2 ^ (rkLvl s f + 1)) := by
    rw [hdest]
    split
    · rename_i hcond
      obtain ⟨hf0, hkle⟩ := hcond
      subst hf0
      simp [hkle]
    · rename_i hcond
      simp [hcond]
      exact hspare_ne
  set s' : RkState :=
    { levels := Function.update s.levels f (s.levels f + 1)
      recvImg := Function.update s.recvImg f dest
      spare := s.recvImg f
      composites := s.composites ++ [(f, b, dest)] } with hs'
  have hlev' : ∀ j, s'.levels j = if j = f then s.levels f + 1 else s.levels j := by
    intro j
    simp [hs', Function.update_apply]
  have hlvl' : ∀ j, rkLvl s' j = if j = f then rkLvl s f + 1 else rkLvl s j := by
    intro j
    unfold rkLvl
    rw [hlev' j]
    by_cases hj : j = f
    · subst hj
      rw [if_pos rfl, if_pos rfl]
      omega
    · rw [if_neg hj, if_neg hj]
  have harr' : ∀ i, 0 ≤ s'.levels i ↔ 0 ≤ s.levels i := by
    intro i
    rw [hlev' i]
    by_cases hif : i = f
    · subst hif
      rw [if_pos rfl]
      omega
    · rw [if_neg hif]
  have hlvlf : rkLvl s' f = rkLvl s f + 1 := by rw [hlvl' f, if_pos rfl]
  have hlvlne : ∀ j, j ≠ f → rkLvl s' j = rkLvl s j := by
    intro j hj
    rw [hlvl' j, if_neg hj]
  have hlevne : ∀ j, j ≠ f → s'.levels j = s.levels j := by
    intro j hj
    rw [hlev' j, if_neg hj]
  have hfeb : f ≠ b := by omega
  have hfEb : f ∈ R.erase b := Finset.mem_erase.mpr ⟨hfeb, hfR⟩
  have hdone' : radixkCompositesDone k s' = true ↔ dest = RkBuf.final := by
    rw [hdest_iff, radixkCompositesDone, decide_eq_true_iff]
    by_cases hf0 : f = 0
    · subst hf0
      rw [hlev' 0, if_pos rfl]
      constructor
      · rintro ⟨-, hle⟩
        refine ⟨rfl, ?_⟩
        have : ((s.levels 0 + 1).toNat) = rkLvl s 0 + 1 := by unfold rkLvl; omega
        rw [this] at hle
        exact hle
      · rintro ⟨-, hle⟩
        refine ⟨by omega, ?_⟩
        have : ((s.levels 0 + 1).toNat) = rkLvl s 0 + 1 := by unfold rkLvl; omega
        rw [this]
        exact hle
    · rw [hlevne 0 (Ne.symm hf0)]
      constructor
      · intro hcontra
        exfalso
        rw [radixkCompositesDone, decide_eq_false_iff_not] at hnotdone
        exact hnotdone hcontra
      · rintro ⟨h0, -⟩
        exact absurd h0 hf0
  have hall_ne : ∀ c ∈ s.composites, c.2.2 ≠ RkBuf.final := by
    refine list_forall_of_dropLast_getLast _ s.composites hd1 ?_
    intro l hl
    intro hlf
    have hdt : radixkCompositesDone k s = true := hd2.mpr ⟨l, hl, hlf⟩
    rw [hnotdone] at hdt
    exact absurd hdt (by simp)
  refine ⟨?_, hfEb, ?_, ?_, harr', hlvlf⟩
  · -- RkInv for the merged state
    refine ⟨?_, ?_, ?_, ?_, ?_, ?_, ?_, ?_⟩
    · intro r hr
      exact hInv.roots_lt r (Finset.mem_of_mem_erase hr)
    · intro r hr
      rw [harr' r]
      exact hInv.roots_arrived r (Finset.mem_of_mem_erase hr)
    · intro r hr
      by_cases hrf : r = f
      · subst hrf
        rw [hlvlf, pow_succ]
        calc (2:ℕ) ^ rkLvl s r * 2 = 2 ^ (rkLvl s r + 1) := by ring
        _ ∣ r := hfal
      · rw [hlvlne r hrf]
        exact hInv.align r (Finset.mem_of_mem_erase hr)
    · intro i hik
      rw [harr' i, hInv.cover i hik]
      constructor
      · rintro ⟨r, hrR, hin1, hin2⟩
        by_cases hrb : r = b
        · subst hrb
          refine ⟨f, hfEb, by omega, ?_⟩
          rw [hlvlf, pow_succ]
          rw [hlevb] at hin2
          omega
        · refine ⟨r, Finset.mem_erase.mpr ⟨hrb, hrR⟩, hin1, ?_⟩
          by_cases hrf : r = f
          · subst hrf
            rw [hlvlf]
            have : (2:ℕ) ^ rkLvl s r ≤ 2 ^ (rkLvl s r + 1) :=
              Nat.pow_le_pow_right (by norm_num) (by omega)
            omega
          · rw [hlvlne r hrf]
            exact hin2
      · rintro ⟨r, hre, hin1, hin2⟩
        have hrR := Finset.mem_of_mem_erase hre
        by_cases hrf : r = f
        · subst hrf
          rw [hlvlf, pow_succ] at hin2
          by_cases hsplit : i < r + 2 ^ rkLvl s r
          · exact ⟨r, hrR, hin1, hsplit⟩
          · refine ⟨b, hbR, by omega, ?_⟩
            rw [hlevb]
            omega
        · rw [hlvlne r hrf] at hin2
          exact ⟨r, hrR, hin1, hin2⟩
    · intro r hre r' hre' hlt
      have hrR := Finset.mem_of_mem_erase hre
      have hrR' := Finset.mem_of_mem_erase hre'
      by_cases hrf : r = f
      · subst hrf
        rw [hlvlf, pow_succ]
        have h1 := hInv.disj r hrR r' hrR' hlt
        have hbr' : b < r' := by
          have hne := (Finset.mem_erase.mp hre').1
          omega
        have h2 := hInv.disj b hbR r' hrR' hbr'
        rw [hlevb] at h2
        omega
      · rw [hlvlne r hrf]
        exact hInv.disj r hrR r' hrR' hlt
    · intro i hik hiarr hiE
      rw [harr' i] at hiarr
      by_cases hib : i = b
      · rw [hib]
        have hbf : b ≠ f := by omega
        rw [hlvlne b hbf, hlevb]
        exact hex
      · have hiR : i ∉ R := by
          intro hiR
          exact hiE (Finset.mem_erase.mpr ⟨hib, hiR⟩)
        have hif : i ≠ f := by
          rintro rfl
          exact hiR hfR
        rw [hlvlne i hif]
        exact hInv.stale i hik hiarr hiR
    · intro h0e
      by_cases hf0 : f = 0
      · subst hf0
        rw [hlvlf, pow_succ]
        omega
      · rw [hlvlne 0 (Ne.symm hf0)]
        exact hInv.lvl_zero (Finset.mem_of_mem_erase h0e)
    · have hlen : s'.composites.length = s.composites.length + 1 := by
        simp [hs']
      have hcard : (R.erase b).card = R.card - 1 := Finset.card_erase_of_mem hbR
      have hcard1 : 1 ≤ R.card := Finset.card_pos.mpr ⟨b, hbR⟩
      have hfil : ((Finset.range k).filter (fun i => 0 ≤ s'.levels i)) =
          ((Finset.range k).filter (fun i => 0 ≤ s.levels i)) := by
        apply Finset.filter_congr
        intro i _
        simp [harr' i]
      rw [hlen, hcard, hfil]
      have := hInv.count
      omega
  · -- quiescent except at f
    intro r hre hrf
    have hrR := Finset.mem_of_mem_erase hre
    have hrb : r ≠ b := (Finset.mem_erase.mp hre).1
    have hra : r ≠ a := by rcases ha with rfl | rfl <;> [exact hrf; exact hrb]
    obtain ⟨h1, h2⟩ := hQE r hrR hra
    have hlvlr := hlvlne r hrf
    have hlevr := hlevne r hrf
    constructor
    · intro hpr'
      exact h1 ((rkPromotable_congr hlvlr).mp hpr')
    · intro hm'
      rw [rkPaired_congr hlvlr]
      by_cases hpf : rkPaired s r = f
      · exact hpf
      · exfalso
        have hlevp : s'.levels (rkPaired s r) = s.levels (rkPaired s r) :=
          hlevne (rkPaired s r) hpf
        have hm : rkMergeable k s r :=
          (rkMergeable_congr hlvlr hlevr hlevp).mp hm'
        have hpa := h2 hm
        rcases ha with rfl | rfl
        · exact hpf hpa
        · -- a = b: the pair of b is f, so r would have to be f
          obtain ⟨hsym1, -⟩ := rkMergeable_symm hInv hrR hm
          rw [hpa] at hsym1
          have hnb : ¬(2 ^ (rkLvl s a + 1) ∣ a) := by
            rw [hlevb]
            exact hex.2
          have hpb : rkPaired s a = a - 2 ^ rkLvl s a := by
            rw [rkPaired, if_neg hnb]
          rw [hpb, hlevb] at hsym1
          have hba : a - 2 ^ rkLvl s f = f := by omega
          rw [hba] at hsym1
          exact hrf hsym1.symm
  · -- destination bookkeeping
    refine ⟨?_, ?_, ?_⟩
    · intro c hc
      have : s'.composites.dropLast = s.composites := by
        simp [hs']
      rw [this] at hc
      exact hall_ne c hc
    · have hlast : s'.composites.getLast? = some (f, b, dest) := by
        simp [hs']
      rw [hlast, hdone']
      constructor
      · intro hdf
        exact ⟨(f, b, dest), rfl, hdf⟩
      · rintro ⟨l, hl, hlf⟩
        cases hl
        exact hlf
    · intro hnd'
      have hdne : dest ≠ RkBuf.final := by
        intro hdf
        rw [← hdone'] at hdf
        rw [hdf] at hnd'
        exact absurd hnd' (by simp)
      constructor
      · exact hrecv_ne f
      · intro i
        show Function.update s.recvImg f dest i ≠ RkBuf.final
        rw [Function.update_apply]
        split
        · exact hdne
        · exact hrecv_ne i

/-- The `while (ICET_TRUE)` loop of `radixkTryCompositeIncoming` preserves
the invariants and restores full quiescence, provided the fuel exceeds the
measure `(k+2)*a + ((k+2) - level(a))`. -/
theorem radixkTryCompositeLoop_spec (k : ℕ) (hk : 2 ≤ k) :
    ∀ (fuel : ℕ) (s : RkState) (a : ℕ) (R : Finset ℕ),
      RkInv k s R → a ∈ R → RkQuietE k s R a → RkDestInv k s →
      (k + 2) * a + ((k + 2) - rkLvl s a) < fuel →
      ∃ R', R' ⊆ R ∧
        RkInv k (radixkTryCompositeLoop k RkBuf.final fuel s a) R' ∧
        RkQuiet k (radixkTryCompositeLoop k RkBuf.final fuel s a) R' ∧
        RkDestInv k (radixkTryCompositeLoop k RkBuf.final fuel s a) ∧
        (∀ i, 0 ≤ (radixkTryCompositeLoop k RkBuf.final fuel s a).levels i ↔
          0 ≤ s.levels i) := by
  intro fuel
  induction fuel with
  | zero =>
    intro s a R hInv haR hQE hD hfuel
    omega
  | succ fuel ih =>
    intro s a R hInv haR hQE hD hfuel
    have harr : 0 ≤ s.levels a := hInv.roots_arrived a haR
    have hlvleq : (s.levels a).toNat = rkLvl s a := rfl
    have hak : a < k := hInv.roots_lt a haR
    have hbnd : 2 ^ rkLvl s a ≤ 2 * k := hInv.lvl_bound haR
    have hlbnd : rkLvl s a ≤ k + 1 := rk_two_pow_le_bound hbnd
    have hpow : (0:ℕ) < 2 ^ rkLvl s a := Nat.pos_pow_of_pos _ (by norm_num)
    have hsub : (2:ℕ) * 2 ^ rkLvl s a = 2 ^ (rkLvl s a + 1) := by
      rw [pow_succ]
      ring
    rw [radixkTryCompositeLoop]
    simp only
    rw [hlvleq]
    by_cases hc1 : a % (2 * 2 ^ rkLvl s a) = 0 ∧ k ≤ a + 2 ^ rkLvl s a
    · rw [if_pos hc1]
      by_cases ha0 : a = 0
      · rw [if_pos ha0]
        subst ha0
        refine ⟨R, le_refl R, hInv, ?_, hD, fun i => Iff.rfl⟩
        refine rk_quiet_of_break hInv haR hQE ?_ ?_
        · rintro ⟨hne, -, -⟩
          exact hne rfl
        · intro hm
          rw [rkMergeable, if_pos (by simpa using (dvd_zero _))] at hm
          omega
      · rw [if_neg ha0]
        have hal : 2 ^ (rkLvl s a + 1) ∣ a := by
          rw [← hsub]
          exact Nat.dvd_of_mod_eq_zero hc1.1
        obtain ⟨hInv', hQE', hD', harr', hlvl'⟩ :=
          rk_promote_step hInv haR hQE hD ha0 hal hc1.2
        obtain ⟨R', hsub', c1, c2, c3, c4⟩ :=
          ih _ a R hInv' haR hQE' hD' (by rw [hlvl']; omega)
        refine ⟨R', hsub', c1, c2, c3, ?_⟩
        intro i
        rw [c4 i, harr' i]
    · rw [if_neg hc1]
      by_cases hal : a % (2 * 2 ^ rkLvl s a) = 0
      · -- aligned: front = a, back = a + dist, with back < k
        simp only [if_pos hal]
        have haldvd : 2 ^ (rkLvl s a + 1) ∣ a := by
          rw [← hsub]
          exact Nat.dvd_of_mod_eq_zero hal
        have hbk : a + 2 ^ rkLvl s a < k := by
          rcases Nat.lt_or_ge (a + 2 ^ rkLvl s a) k with h | h
          · exact h
          · exact absurd ⟨hal, h⟩ hc1
        by_cases hmis : s.levels a = s.levels (a + 2 ^ rkLvl s a)
        · rw [if_neg (not_not_intro hmis)]
          have hm : rkMergeable k s a := by
            rw [rkMergeable, if_pos haldvd]
            exact ⟨hbk, hmis.symm⟩
          obtain ⟨hbR, hblev⟩ := rkMergeable_paired_mem hInv haR hm
          rw [rkPaired, if_pos haldvd] at hbR hblev
          have hdest_eq : (if a = 0 ∧ k ≤ 2 * 2 ^ rkLvl s a then RkBuf.final
              else s.spare) =
              (if a = 0 ∧ k ≤ 2 ^ (rkLvl s a + 1) then RkBuf.final else s.spare) := by
            rw [hsub]
          obtain ⟨hInv', hfE', hQE', hD', harr', hlvl'⟩ :=
            rk_composite_step (a := a) (f := a) (b := a + 2 ^ rkLvl s a)
              hInv hQE hD hk haR hbR rfl hblev haldvd hbk (Or.inl rfl) hdest_eq
          obtain ⟨R', hsub', c1, c2, c3, c4⟩ :=
            ih _ a (R.erase (a + 2 ^ rkLvl s a)) hInv' hfE' hQE' hD' (by rw [hlvl']; omega)
          refine ⟨R', le_trans hsub' (Finset.erase_subset _ _), c1, c2, c3, ?_⟩
          intro i
          rw [c4 i, harr' i]
        · rw [if_pos hmis]
          refine ⟨R, le_refl R, hInv, ?_, hD, fun i => Iff.rfl⟩
          refine rk_quiet_of_break hInv haR hQE ?_ ?_
          · rintro ⟨-, -, hp3⟩
            omega
          · intro hmm
            rw [rkMergeable, if_pos haldvd] at hmm
            exact hmis hmm.2.symm
      · -- not aligned: front = a - dist, back = a
        simp only [if_neg hal]
        have hnaldvd : ¬(2 ^ (rkLvl s a + 1) ∣ a) := by
          rw [← hsub]
          intro hdvd
          exact hal (Nat.mod_eq_zero_of_dvd hdvd)
        by_cases hmis : s.levels (a - 2 ^ rkLvl s a) = s.levels a
        · rw [if_neg (not_not_intro hmis)]
          have hm : rkMergeable k s a := by
            rw [rkMergeable, if_neg hnaldvd]
            exact hmis
          obtain ⟨hfR, hflev⟩ := rkMergeable_paired_mem hInv haR hm
          rw [rkPaired, if_neg hnaldvd] at hfR hflev
          have ha0 : a ≠ 0 := by
            rintro rfl
            exact hal (Nat.zero_mod _)
          have halign : 2 ^ rkLvl s a ∣ a := hInv.align a haR
          have hge : 2 ^ rkLvl s a ≤ a := Nat.le_of_dvd (by omega) halign
          have hlvlfa : rkLvl s (a - 2 ^ rkLvl s a) = rkLvl s a := by
            unfold rkLvl at hflev ⊢
            omega
          have hfal : 2 ^ (rkLvl s (a - 2 ^ rkLvl s a) + 1) ∣ (a - 2 ^ rkLvl s a) := by
            rw [hlvlfa]
            exact rk_sub_pow_aligned halign hnaldvd
          have hfb : a = (a - 2 ^ rkLvl s a) + 2 ^ rkLvl s (a - 2 ^ rkLvl s a) := by
            rw [hlvlfa]
            omega
          have hdest_eq : (if a - 2 ^ rkLvl s a = 0 ∧
              k ≤ 2 * 2 ^ rkLvl s a then RkBuf.final else s.spare) =
              (if a - 2 ^ rkLvl s a = 0 ∧
                k ≤ 2 ^ (rkLvl s (a - 2 ^ rkLvl s a) + 1) then RkBuf.final
                else s.spare) := by
            rw [hlvlfa, hsub]
          obtain ⟨hInv', hfE', hQE', hD', harr', hlvl'⟩ :=
            rk_composite_step (a := a) (f := a - 2 ^ rkLvl s a) (b := a)
              hInv hQE hD hk hfR haR hfb (by rw [← hflev]) hfal hak
              (Or.inr rfl) hdest_eq
          have hmul : (k + 2) * (a - 2 ^ rkLvl s a) + (k + 2) ≤ (k + 2) * a := by
            have h1 : a - 2 ^ rkLvl s a + 1 ≤ a := by omega
            calc (k + 2) * (a - 2 ^ rkLvl s a) + (k + 2)
                = (k + 2) * (a - 2 ^ rkLvl s a + 1) := by ring
              _ ≤ (k + 2) * a := Nat.mul_le_mul_left _ h1
          obtain ⟨R', hsub', c1, c2, c3, c4⟩ :=
            ih _ (a - 2 ^ rkLvl s a) (R.erase a) hInv' hfE' hQE' hD'
              (by rw [hlvl', hlvlfa]; omega)
          refine ⟨R', le_trans hsub' (Finset.erase_subset _ _), c1, c2, c3, ?_⟩
          intro i
          rw [c4 i, harr' i]
        · rw [if_pos hmis]
          refine ⟨R, le_refl R, hInv, ?_, hD, fun i => Iff.rfl⟩
          refine rk_quiet_of_break hInv haR hQE ?_ ?_
          · rintro ⟨-, hp2, -⟩
            exact hnaldvd hp2
          · intro hmm
            rw [rkMergeable, if_neg hnaldvd] at hmm
            exact hmis hmm

/-- Effect of one completed receive (radixk.c lines 523-539) on the
invariants: the fresh partner becomes a singleton root, and the
try-composite loop run from it restores quiescence. -/
theorem rk_arrival_step {k : ℕ} (hk : 2 ≤ k) {s : RkState} {R : Finset ℕ} {a : ℕ}
    (hInv : RkInv k s R) (hQ : RkQuiet k s R) (hD : RkDestInv k s)
    (hnd : radixkCompositesDone k s = false) (hak : a < k) (hfr : s.levels a < 0) :
    ∃ R', R' ⊆ insert a R ∧
      RkInv k (radixkCompositeStep k s a) R' ∧
      RkQuiet k (radixkCompositeStep k s a) R' ∧
      RkDestInv k (radixkCompositeStep k s a) ∧
      (∀ i, 0 ≤ (radixkCompositeStep k s a).levels i ↔ (i = a ∨ 0 ≤ s.levels i)) := by
  have haR : a ∉ R := fun h => absurd (hInv.roots_arrived a h) (by omega)
  set s1 : RkState :=
    { s with
      levels := Function.update s.levels a 0
      recvImg := Function.update s.recvImg a (RkBuf.recv a) } with hs1
  have hlev1 : ∀ j, s1.levels j = if j = a then 0 else s.levels j := by
    intro j
    simp [hs1, Function.update_apply]
  have hrv1 : ∀ j, s1.recvImg j = if j = a then RkBuf.recv a else s.recvImg j := by
    intro j
    simp [hs1, Function.update_apply]
  have hlvl1 : ∀ j, rkLvl s1 j = if j = a then 0 else rkLvl s j := by
    intro j
    unfold rkLvl
    rw [hlev1 j]
    split <;> rfl
  have harr1 : ∀ i, 0 ≤ s1.levels i ↔ (i = a ∨ 0 ≤ s.levels i) := by
    intro i
    rw [hlev1 i]
    by_cases hia : i = a
    · subst hia
      simp
    · rw [if_neg hia]
      simp [hia]
  have hlvlne : ∀ j, j ≠ a → rkLvl s1 j = rkLvl s j := fun j hj => by
    rw [hlvl1 j, if_neg hj]
  have hlevne : ∀ j, j ≠ a → s1.levels j = s.levels j := fun j hj => by
    rw [hlev1 j, if_neg hj]
  have hlvla : rkLvl s1 a = 0 := by rw [hlvl1 a, if_pos rfl]
  have hInv1 : RkInv k s1 (insert a R) := by
    refine ⟨?_, ?_, ?_, ?_, ?_, ?_, ?_, ?_⟩
    · intro r hr
      rcases Finset.mem_insert.mp hr with rfl | hr
      · exact hak
      · exact hInv.roots_lt r hr
    · intro r hr
      rcases Finset.mem_insert.mp hr with rfl | hr
      · rw [hlev1 r, if_pos rfl]
      · rw [hlevne r (fun h => haR (h ▸ hr))]
        exact hInv.roots_arrived r hr
    · intro r hr
      rcases Finset.mem_insert.mp hr with rfl | hr
      · rw [hlvla, pow_zero]
        exact one_dvd r
      · rw [hlvlne r (fun h => haR (h ▸ hr))]
        exact hInv.align r hr
    · intro i hik
      rw [harr1 i]
      constructor
      · rintro (rfl | hi)
        · exact ⟨i, Finset.mem_insert_self i R, rkInBlock_self s1 i⟩
        · obtain ⟨r, hrR, hin⟩ := (hInv.cover i hik).mp hi
          have hra : r ≠ a := fun h => haR (h ▸ hrR)
          obtain ⟨h1, h2⟩ := hin
          refine ⟨r, Finset.mem_insert_of_mem hrR, h1, ?_⟩
          rw [hlvlne r hra]
          exact h2
      · rintro ⟨r, hr, hin⟩
        rcases Finset.mem_insert.mp hr with rfl | hrR
        · obtain ⟨h1, h2⟩ := hin
          rw [hlvla, pow_zero] at h2
          left
          omega
        · right
          have hra : r ≠ a := fun h => haR (h ▸ hrR)
          obtain ⟨h1, h2⟩ := hin
          rw [hlvlne r hra] at h2
          exact (hInv.cover i hik).mpr ⟨r, hrR, h1, h2⟩
    · intro r hr r' hr' hlt
      rcases Finset.mem_insert.mp hr with rfl | hrR
      · rcases Finset.mem_insert.mp hr' with rfl | hr'R
        · omega
        · rw [hlvla, pow_zero]
          omega
      · have hra : r ≠ a := fun h => haR (h ▸ hrR)
        rcases Finset.mem_insert.mp hr' with rfl | hr'R
        · rw [hlvlne r hra]
          by_contra hcon
          push_neg at hcon
          have : 0 ≤ s.levels r' := (hInv.cover r' hak).mpr ⟨r, hrR, le_of_lt hlt, hcon⟩
          omega
        · rw [hlvlne r hra]
          exact hInv.disj r hrR r' hr'R hlt
    · intro i hik hiarr hiR
      have hia : i ≠ a := fun h => hiR (h ▸ Finset.mem_insert_self a R)
      have hiR' : i ∉ R := fun h => hiR (Finset.mem_insert_of_mem h)
      rw [harr1 i] at hiarr
      rw [hlvlne i hia]
      exact hInv.stale i hik (hiarr.resolve_left hia) hiR'
    · intro h0
      rcases Finset.mem_insert.mp h0 with h0a | h0R
      · rw [hlvl1 0, if_pos h0a, pow_zero]
        omega
      · have h0a : (0 : ℕ) ≠ a := fun h => haR (h ▸ h0R)
        rw [hlvlne 0 h0a]
        exact hInv.lvl_zero h0R
    · have hcomp : s1.composites = s.composites := rfl
      have hfil : ((Finset.range k).filter (fun i => 0 ≤ s1.levels i)) =
          insert a ((Finset.range k).filter (fun i => 0 ≤ s.levels i)) := by
        ext i
        simp only [Finset.mem_filter, Finset.mem_insert, Finset.mem_range]
        rw [harr1 i]
        constructor
        · rintro ⟨hik, rfl | h⟩
          · exact Or.inl rfl
          · exact Or.inr ⟨hik, h⟩
        · rintro (rfl | ⟨hik, h⟩)
          · exact ⟨hak, Or.inl rfl⟩
          · exact ⟨hik, Or.inr h⟩
      have hnf : a ∉ (Finset.range k).filter (fun i => 0 ≤ s.levels i) := by
        simp only [Finset.mem_filter, Finset.mem_range]
        rintro ⟨-, h⟩
        omega
      rw [hcomp, hfil, Finset.card_insert_of_not_mem haR,
        Finset.card_insert_of_not_mem hnf]
      have := hInv.count
      omega
  have hQE1 : RkQuietE k s1 (insert a R) a := by
    intro r hr hra
    have hrR : r ∈ R := (Finset.mem_insert.mp hr).resolve_left hra
    have hlvlr : rkLvl s1 r = rkLvl s r := hlvlne r hra
    have hlevr : s1.levels r = s.levels r := hlevne r hra
    obtain ⟨h1, h2⟩ := hQ r hrR
    constructor
    · intro hp
      exact h1 ((rkPromotable_congr hlvlr).mp hp)
    · intro hm
      rw [rkPaired_congr hlvlr]
      by_cases hpa : rkPaired s r = a
      · exact hpa
      · exfalso
        have hlevp : s1.levels (rkPaired s r) = s.levels (rkPaired s r) := hlevne _ hpa
        exact h2 ((rkMergeable_congr hlvlr hlevr hlevp).mp hm)
  have hdone1 : radixkCompositesDone k s1 = false := by
    rw [radixkCompositesDone, decide_eq_false_iff_not]
    rw [hlev1 0]
    by_cases h0a : (0 : ℕ) = a
    · rw [if_pos h0a]
      rintro ⟨-, hcon⟩
      simp at hcon
      omega
    · rw [if_neg h0a]
      rw [radixkCompositesDone, decide_eq_false_iff_not] at hnd
      exact hnd
  have hD1 : RkDestInv k s1 := by
    obtain ⟨d1, d2, d3⟩ := hD
    obtain ⟨dsp, drv⟩ := d3 hnd
    refine ⟨d1, ?_, ?_⟩
    · rw [hdone1]
      rw [hnd] at d2
      exact d2
    · intro _
      refine ⟨dsp, ?_⟩
      intro i
      rw [hrv1 i]
      by_cases hia : i = a
      · rw [if_pos hia]
        simp
      · rw [if_neg hia]
        exact drv i
  have hmeas : (k + 2) * a + ((k + 2) - rkLvl s1 a) < radixkEngineFuel k := by
    rw [hlvla, radixkEngineFuel]
    have h1 : (k + 2) * (a + 1) < (k + 2) * (k + 2) :=
      mul_lt_mul_of_pos_left (by omega) (by omega)
    have h2 : (k + 2) * (a + 1) = (k + 2) * a + (k + 2) := by ring
    omega
  have hstep : radixkCompositeStep k s a =
      radixkTryCompositeLoop k RkBuf.final (radixkEngineFuel k) s1 a := rfl
  rw [hstep]
  obtain ⟨R', hsub, c1, c2, c3, c4⟩ :=
    radixkTryCompositeLoop_spec k hk (radixkEngineFuel k) s1 a (insert a R)
      hInv1 (Finset.mem_insert_self a R) hQE1 hD1 hmeas
  refine ⟨R', hsub, c1, c2, c3, fun i => ?_⟩
  rw [c4 i]
  exact harr1 i

/-- The wait loop (radixk.c lines 518-540) driven by a list of fresh
arrivals covering every not-yet-arrived partner terminates with
`composites_done` true and all invariants intact. -/
theorem radixkWaitLoop_spec (k : ℕ) (hk : 2 ≤ k) :
    ∀ (arrivals : List ℕ) (s : RkState) (R : Finset ℕ),
      RkInv k s R → RkQuiet k s R → RkDestInv k s →
      (∀ a ∈ arrivals, a < k ∧ s.levels a < 0) →
      arrivals.Nodup →
      (∀ i, i < k → 0 ≤ s.levels i ∨ i ∈ arrivals) →
      ∃ s' R', radixkWaitLoop k arrivals s = (s', true) ∧
        RkInv k s' R' ∧ RkDestInv k s' ∧ radixkCompositesDone k s' = true := by
  intro arrivals
  induction arrivals with
  | nil =>
    intro s R hInv hQ hD hfresh hnd hcov
    have hall : ∀ i, i < k → 0 ≤ s.levels i := by
      intro i hik
      rcases hcov i hik with h | h
      · exact h
      · simp at h
    have hdone := rkQuiet_done hInv hQ (by omega) hall
    refine ⟨s, R, ?_, hInv, hD, hdone⟩
    rw [radixkWaitLoop]
    simp [hdone]
  | cons a rest ih =>
    intro s R hInv hQ hD hfresh hnd hcov
    by_cases hdone : radixkCompositesDone k s = true
    · refine ⟨s, R, ?_, hInv, hD, hdone⟩
      rw [radixkWaitLoop]
      simp [hdone]
    · have hdf : radixkCompositesDone k s = false := Bool.eq_false_iff.mpr hdone
      obtain ⟨hak, hfr⟩ := hfresh a (List.mem_cons_self a rest)
      obtain ⟨R2, hsub2, hInv2, hQ2, hD2, harr2⟩ :=
        rk_arrival_step hk hInv hQ hD hdf hak hfr
      obtain ⟨hanr, hndr⟩ := List.nodup_cons.mp hnd
      have hfresh2 : ∀ b ∈ rest, b < k ∧ (radixkCompositeStep k s a).levels b < 0 := by
        intro b hb
        obtain ⟨hbk, hbfr⟩ := hfresh b (List.mem_cons_of_mem a hb)
        refine ⟨hbk, ?_⟩
        have hnb : ¬(0 ≤ (radixkCompositeStep k s a).levels b) := by
          rw [harr2 b]
          rintro (rfl | h)
          · exact hanr hb
          · omega
        omega
      have hcov2 : ∀ i, i < k → 0 ≤ (radixkCompositeStep k s a).levels i ∨ i ∈ rest := by
        intro i hik
        rcases hcov i hik with h | h
        · exact Or.inl ((harr2 i).mpr (Or.inr h))
        · rcases List.mem_cons.mp h with rfl | h
          · exact Or.inl ((harr2 i).mpr (Or.inl rfl))
          · exact Or.inr h
      obtain ⟨s', R', heq, hInv', hD', hdone'⟩ :=
        ih (radixkCompositeStep k s a) R2 hInv2 hQ2 hD2 hfresh2 hndr hcov2
      refine ⟨s', R', ?_, hInv', hD', hdone'⟩
      rw [radixkWaitLoop]
      simp only [hdf]
      exact heq

/-- C2: for every round radix k ≥ 2, every self partition index m < k, and
every order in which the k-1 partner images arrive, the tree-composite
engine of `radixkCompositeIncomingImages` (radixk.c lines 418-541) reports
completion having performed exactly k-1 pair-composites, every composite
before the last writes a non-final (spare) buffer, and the last composite
writes directly into the caller's `final_image` buffer. -/
theorem radixk_tree_composite (k m : ℕ) (order : List ℕ) (hk : 2 ≤ k)
    (hm : m < k) (hord : order.Perm ((List.range k).erase m)) :
    (radixkCompositeIncomingImages k m order).2 = true ∧
    (radixkCompositeIncomingImages k m order).1.composites.length = k - 1 ∧
    (∀ c ∈ (radixkCompositeIncomingImages k m order).1.composites.dropLast,
      c.2.2 ≠ RkBuf.final) ∧
    (∃ l, (radixkCompositeIncomingImages k m order).1.composites.getLast? = some l ∧
      l.2.2 = RkBuf.final) := by
  set s0 : RkState :=
    { levels := fun i => if i = m then 0 else -1
      recvImg := fun i => if i = m then RkBuf.send i else RkBuf.null
      spare := if 2 ≤ k - 1 then RkBuf.spare else RkBuf.null
      composites := [] } with hs0
  have hlev0 : ∀ j, s0.levels j = if j = m then 0 else -1 := fun j => rfl
  have hlvl0 : ∀ j, rkLvl s0 j = 0 := by
    intro j
    unfold rkLvl
    rw [hlev0 j]
    split <;> rfl
  have harr0 : ∀ i, 0 ≤ s0.levels i ↔ i = m := by
    intro i
    rw [hlev0 i]
    by_cases him : i = m
    · subst him
      simp
    · rw [if_neg him]
      simp [him]
  have hInv0 : RkInv k s0 {m} := by
    refine ⟨?_, ?_, ?_, ?_, ?_, ?_, ?_, ?_⟩
    · intro r hr
      rw [Finset.mem_singleton] at hr
      exact hr ▸ hm
    · intro r hr
      rw [Finset.mem_singleton] at hr
      exact (harr0 r).mpr hr
    · intro r hr
      rw [hlvl0 r, pow_zero]
      exact one_dvd r
    · intro i hik
      rw [harr0 i]
      constructor
      · rintro rfl
        exact ⟨i, Finset.mem_singleton_self i, rkInBlock_self s0 i⟩
      · rintro ⟨r, hr, h1, h2⟩
        rw [Finset.mem_singleton] at hr
        rw [hlvl0 r, pow_zero] at h2
        omega
    · intro r hr r' hr' hlt
      rw [Finset.mem_singleton] at hr hr'
      omega
    · intro i hik hiarr hiR
      rw [harr0 i] at hiarr
      rw [Finset.mem_singleton] at hiR
      exact absurd hiarr hiR
    · intro h0
      rw [hlvl0 0, pow_zero]
      omega
    · have hfil : ((Finset.range k).filter (fun i => 0 ≤ s0.levels i)) = {m} := by
        ext i
        simp only [Finset.mem_filter, Finset.mem_range, Finset.mem_singleton]
        rw [harr0 i]
        constructor
        · exact fun h => h.2
        · rintro rfl
          exact ⟨hm, rfl⟩
      rw [hfil]
      rfl
  have hQE0 : RkQuietE k s0 {m} m := by
    intro r hr hrm
    rw [Finset.mem_singleton] at hr
    exact absurd hr hrm
  have hdone0 : radixkCompositesDone k s0 = false := by
    rw [radixkCompositesDone, decide_eq_false_iff_not]
    rw [hlev0 0]
    by_cases h0m : (0 : ℕ) = m
    · rw [if_pos h0m]
      rintro ⟨-, hcon⟩
      simp at hcon
      omega
    · rw [if_neg h0m]
      rintro ⟨hcon, -⟩
      omega
  have hD0 : RkDestInv k s0 := by
    refine ⟨?_, ?_, ?_⟩
    · intro c hc
      simp [hs0] at hc
    · rw [hdone0]
      constructor
      · intro h
        exact absurd h (by simp)
      · rintro ⟨l, hl, -⟩
        simp [hs0] at hl
    · intro _
      constructor
      · show (if 2 ≤ k - 1 then RkBuf.spare else RkBuf.null) ≠ RkBuf.final
        split <;> simp
      · intro i
        show (if i = m then RkBuf.send i else RkBuf.null) ≠ RkBuf.final
        split <;> simp
  have hmeas : (k + 2) * m + ((k + 2) - rkLvl s0 m) < radixkEngineFuel k := by
    rw [hlvl0 m, radixkEngineFuel]
    have h1 : (k + 2) * (m + 1) < (k + 2) * (k + 2) :=
      mul_lt_mul_of_pos_left (by omega) (by omega)
    have h2 : (k + 2) * (m + 1) = (k + 2) * m + (k + 2) := by ring
    omega
  obtain ⟨R1, hsub1, hInv1, hQ1, hD1, harr1⟩ :=
    radixkTryCompositeLoop_spec k hk (radixkEngineFuel k) s0 m {m}
      hInv0 (Finset.mem_singleton_self m) hQE0 hD0 hmeas
  set s1 : RkState := radixkTryCompositeLoop k RkBuf.final (radixkEngineFuel k) s0 m
    with hs1
  have hordmem : ∀ b, b ∈ order ↔ (b < k ∧ b ≠ m) := by
    intro b
    rw [hord.mem_iff, List.Nodup.mem_erase_iff (List.nodup_range k), List.mem_range]
    constructor
    · rintro ⟨h1, h2⟩
      exact ⟨h2, h1⟩
    · rintro ⟨h1, h2⟩
      exact ⟨h2, h1⟩
  have hfresh1 : ∀ b ∈ order, b < k ∧ s1.levels b < 0 := by
    intro b hb
    obtain ⟨hbk, hbm⟩ := (hordmem b).mp hb
    refine ⟨hbk, ?_⟩
    have : ¬(0 ≤ s1.levels b) := by
      rw [harr1 b, harr0 b]
      exact hbm
    omega
  have hnd1 : order.Nodup := hord.nodup_iff.mpr ((List.nodup_range k).erase m)
  have hcov1 : ∀ i, i < k → 0 ≤ s1.levels i ∨ i ∈ order := by
    intro i hik
    by_cases him : i = m
    · exact Or.inl ((harr1 i).mpr ((harr0 i).mpr him))
    · exact Or.inr ((hordmem i).mpr ⟨hik, him⟩)
  obtain ⟨s2, R2, heq, hInv2, hD2, hdone2⟩ :=
    radixkWaitLoop_spec k hk order s1 R1 hInv1 hQ1 hD1 hfresh1 hnd1 hcov1
  have hres : radixkCompositeIncomingImages k m order = (s2, true) := by
    rw [radixkCompositeIncomingImages]
    exact heq
  rw [hres]
  have h0arr : 0 ≤ s2.levels 0 := by
    rw [radixkCompositesDone, decide_eq_true_iff] at hdone2
    exact hdone2.1
  have h0blk : k ≤ 2 ^ rkLvl s2 0 := by
    rw [radixkCompositesDone, decide_eq_true_iff] at hdone2
    exact hdone2.2
  have hR2 : R2 = {0} := hInv2.done_eq (by omega) hdone2
  have hall2 : ∀ i, i < k → 0 ≤ s2.levels i := by
    intro i hik
    refine (hInv2.cover i hik).mpr ⟨0, ?_, ?_, ?_⟩
    · rw [hR2]
      exact Finset.mem_singleton_self 0
    · omega
    · omega
  have hcount : s2.composites.length = k - 1 := by
    have hfil : ((Finset.range k).filter (fun i => 0 ≤ s2.levels i)) =
        Finset.range k := by
      apply Finset.filter_true_of_mem
      intro i hi
      exact hall2 i (Finset.mem_range.mp hi)
    have hc := hInv2.count
    rw [hfil, hR2, Finset.card_singleton, Finset.card_range] at hc
    omega
  obtain ⟨d1, d2, d3⟩ := hD2
  exact ⟨rfl, hcount, d1, d2.mp hdone2⟩

theorem radixk_tree_composite_witness :
    (2 ≤ 5 ∧ 1 < 5 ∧ [2, 0, 4, 3].Perm ((List.range 5).erase 1)) ∧
    ((radixkCompositeIncomingImages 5 1 [2, 0, 4, 3]).2 = true ∧
      (radixkCompositeIncomingImages 5 1 [2, 0, 4, 3]).1.composites.length = 5 - 1 ∧
      (∀ c ∈ (radixkCompositeIncomingImages 5 1 [2, 0, 4, 3]).1.composites.dropLast,
        c.2.2 ≠ RkBuf.final) ∧
      (∃ l, (radixkCompositeIncomingImages 5 1
          [2, 0, 4, 3]).1.composites.getLast? = some l ∧
        l.2.2 = RkBuf.final)) :=
  ⟨⟨by decide, by decide, by decide⟩,
    radixk_tree_composite 5 1 [2, 0, 4, 3] (by decide) (by decide) (by decide)⟩

/-! ## The compose driver (`icetRadixkCompose`, radixk.c lines 543-676)

The driver is embedded over an environment of values it reads but does not
compute: the `ICET_INTERLACE_IMAGES` flag, `icetGetInterlaceOffset`, the
offset each round's `radixkGetPartners` split assigns to the caller's
partition, and the input image's pixel count.  Image handles are tracked
symbolically and the communication rounds actually executed are returned
as a trace. -/

/-- Modelled from the spec: `icetFindMyRankInGroup` scans `compose_group`
for the calling process's rank and returns its index within the group, or
-1 when the rank does not appear ("Find `group_rank`; if absent this is a
fatal error"). -/
def icetFindMyRankInGroup (compose_group : List ℕ) (my_rank : ℕ) : ℤ :=
  match compose_group with
  | [] => -1
  | g :: rest =>
    if g = my_rank then 0
    else
      let r := icetFindMyRankInGroup rest my_rank
      if r < 0 then r else r + 1

theorem icetFindMyRankInGroup_neg (compose_group : List ℕ) (my_rank : ℕ)
    (h : my_rank ∉ compose_group) :
    icetFindMyRankInGroup compose_group my_rank = -1 := by
  induction compose_group with
  | nil => rfl
  | cons g rest ih =>
    rw [icetFindMyRankInGroup]
    rw [List.mem_cons, not_or] at h
    rw [if_neg (fun hg => h.1 hg.symm), ih h.2]
    norm_num

theorem icetFindMyRankInGroup_nonneg (compose_group : List ℕ) (my_rank : ℕ)
    (h : my_rank ∈ compose_group) :
    0 ≤ icetFindMyRankInGroup compose_group my_rank := by
  induction compose_group with
  | nil => simp at h
  | cons g rest ih =>
    rw [icetFindMyRankInGroup]
    by_cases hg : g = my_rank
    · rw [if_pos hg]
    · rw [if_neg hg]
      rcases List.mem_cons.mp h with rfl | hrest
      · exact absurd rfl hg
      · have hr := ih hrest
        simp only
        rw [if_neg (by omega)]
        omega

/-- Symbolic identity of the sparse image handle held in `working_image`:
the caller's `input_image` or the state-buffer `interlaced_image`
(radixk.c lines 560, 591-602, 660). -/
inductive RxImage
  | input
  | interlaced
deriving DecidableEq

/-- State read by `icetRadixkCompose` but produced elsewhere in the
library: the `ICET_INTERLACE_IMAGES` flag, `icetGetInterlaceOffset`, the
offset `partners[current_partition_index].offset` computed by each round's
`radixkGetPartners`, and `icetSparseImageGetNumPixels(input_image)`. -/
structure RxEnv where
  interlace_enabled : Bool
  interlace_offset : ℕ → ℕ → ℕ → ℕ
  round_offset : ℕ → ℕ
  input_pixels : ℕ

/-- The `global_partition` accumulation of `icetRadixkCompose` (radixk.c
lines 661-667): `g = pidx[0]`, then for `r` in `[1, num_rounds)`,
`g = g * k_array[r-1] + pidx[r]`. -/
def radixkGlobalPartition (num_rounds : ℕ) (k_array partition_indices : List ℕ) : ℕ :=
  (List.range' 1 (num_rounds - 1)).foldl
    (fun gp r => gp * k_array.getD (r - 1) 0 + partition_indices.getD r 0)
    (partition_indices.getD 0 0)

/-- `icetRadixkCompose` (radixk.c lines 543-676).  Fatal errors are
modelled as the returns the C code performs after raising them; the result
is `(result_image, piece_offset, trace)` where the trace lists the
communication rounds executed (each round posts receives and sends and
composites the incoming images).  `image_dest` is accepted and discarded,
as in the C (`(void)image_dest`, line 574). -/
def icetRadixkCompose (env : RxEnv) (magic_k : ℕ) (hm : 2 ≤ magic_k)
    (compose_group : List ℕ) (group_size : ℕ) (image_dest : ℕ) (my_rank : ℕ) :
    RxImage × ℕ × List ℕ :=
  let group_rank := icetFindMyRankInGroup compose_group my_rank
  if group_rank < 0 then (RxImage.input, 0, [])
  else if group_size = 1 then (RxImage.input, 0, [])
  else
    let k_array := radixkGetK magic_k hm group_size
    let num_rounds := k_array.length
    let use_interlace := decide (1 < num_rounds) && env.interlace_enabled
    let working_image := if use_interlace then RxImage.interlaced else RxImage.input
    let partition_indices := radixkGetPartitionIndices k_array group_rank.toNat
    let my_offset := (List.range num_rounds).foldl (fun _ r => env.round_offset r) 0
    let piece_offset :=
      if use_interlace then
        env.interlace_offset
          (radixkGlobalPartition num_rounds k_array partition_indices)
          group_size env.input_pixels
      else my_offset
    (working_image, piece_offset, List.range num_rounds)

/-- A concrete environment used to instantiate the driver theorems. -/
def rxEnvC : RxEnv :=
  { interlace_enabled := true
    interlace_offset := fun g _ _ => g
    round_offset := fun r => r
    input_pixels := 100 }

/-- C8: when the calling process's rank does not appear in
`compose_group`, `icetRadixkCompose` (radixk.c lines 562-570) raises the
sanity-check error and returns immediately with `result_image` the
unmodified `input_image` and `piece_offset = 0`, executing no
communication round (empty trace: no sends, receives or composites). -/
theorem radixk_compose_rank_not_in_group (env : RxEnv) (magic_k : ℕ)
    (hm : 2 ≤ magic_k) (compose_group : List ℕ)
    (group_size image_dest my_rank : ℕ) (h : my_rank ∉ compose_group) :
    icetRadixkCompose env magic_k hm compose_group group_size image_dest my_rank =
      (RxImage.input, 0, []) := by
  simp [icetRadixkCompose, icetFindMyRankInGroup_neg compose_group my_rank h]

theorem radixk_compose_rank_not_in_group_witness :
    2 ≤ 2 ∧ (5 : ℕ) ∉ [3, 4] ∧
      icetRadixkCompose rxEnvC 2 (by norm_num) [3, 4] 2 0 5 =
        (RxImage.input, 0, []) :=
  ⟨by norm_num, by decide,
    radixk_compose_rank_not_in_group rxEnvC 2 (by norm_num) [3, 4] 2 0 5 (by decide)⟩

/-- C9: the outputs of `icetRadixkCompose` (result image, piece offset and
executed rounds) do not depend on the `image_dest` argument, which the
driver discards (radixk.c lines 572-574): radix-k leaves images evenly
partitioned, so the destination hint is unused. -/
theorem radixk_compose_image_dest_ignored (env : RxEnv) (magic_k : ℕ)
    (hm : 2 ≤ magic_k) (compose_group : List ℕ) (group_size my_rank : ℕ)
    (image_dest image_dest' : ℕ) :
    icetRadixkCompose env magic_k hm compose_group group_size image_dest my_rank =
      icetRadixkCompose env magic_k hm compose_group group_size image_dest'
        my_rank := rfl

theorem radixk_compose_image_dest_ignored_witness :
    2 ≤ 2 ∧
      icetRadixkCompose rxEnvC 2 (by norm_num) [3, 4] 2 7 3 =
        icetRadixkCompose rxEnvC 2 (by norm_num) [3, 4] 2 9 3 :=
  ⟨by norm_num,
    radixk_compose_image_dest_ignored rxEnvC 2 (by norm_num) [3, 4] 2 3 7 9⟩

theorem list_foldl_const_last {α : Type} (f : ℕ → α) (z : α) (n : ℕ) :
    (List.range (n + 1)).foldl (fun _ r => f r) z = f n := by
  rw [List.range_succ, List.foldl_append]
  rfl

/-- Closed form of the driver's accumulation over rounds `[s+1, s+n]`:
digit `r`'s weight is the product of the factors it is later multiplied
by. -/
theorem rx_fold_closed (k p : List ℕ) :
    ∀ (n s : ℕ), s + n ≤ k.length → ∀ g : ℕ,
      (List.range' (s + 1) n).foldl
          (fun gp r => gp * k.getD (r - 1) 0 + p.getD r 0) g =
        g * ((k.drop s).take n).prod +
          ∑ i in Finset.range n,
            p.getD (s + 1 + i) 0 * ((k.drop (s + 1 + i)).take (n - 1 - i)).prod := by
  intro n
  induction n with
  | zero =>
    intro s hs g
    simp
  | succ n ih =>
    intro s hs g
    have hsk : s < k.length := by omega
    rw [List.range'_succ]
    simp only [List.foldl_cons]
    rw [ih (s + 1) (by omega)]
    have hprod : ((k.drop s).take (n + 1)).prod =
        k.getD s 0 * ((k.drop (s + 1)).take n).prod := by
      rw [List.drop_eq_getElem_cons hsk, List.take_succ_cons, List.prod_cons,
        List.getD_eq_getElem k 0 hsk]
    have hsum : (∑ i in Finset.range n,
          p.getD (s + 1 + 1 + i) 0 * ((k.drop (s + 1 + 1 + i)).take (n - 1 - i)).prod) =
        ∑ i in Finset.range n,
          p.getD (s + 1 + (i + 1)) 0 *
            ((k.drop (s + 1 + (i + 1))).take (n - (i + 1))).prod := by
      refine Finset.sum_congr rfl fun i _ => ?_
      rw [show s + 1 + 1 + i = s + 1 + (i + 1) by omega,
        show n - 1 - i = n - (i + 1) by omega]
    rw [hsum, hprod]
    rw [show n + 1 - 1 = n from rfl]
    rw [Finset.sum_range_succ']
    simp only [Nat.add_zero, Nat.sub_zero, Nat.add_sub_cancel]
    ring
  
/-- Closed form of `radixkGlobalPartition`: the digit for round `i` carries
weight `∏ of k_array[i .. R-2]` (most-significant digit first). -/
theorem radixkGlobalPartition_closed (k p : List ℕ) (hlen : p.length = k.length)
    (hR : 1 ≤ k.length) :
    radixkGlobalPartition k.length k p =
      ∑ i in Finset.range k.length,
        p.getD i 0 * ((k.take (k.length - 1)).drop i).prod := by
  obtain ⟨n, hn⟩ : ∃ n, k.length = n + 1 := ⟨k.length - 1, by omega⟩
  rw [radixkGlobalPartition, hn]
  rw [show n + 1 - 1 = n from rfl]
  have h := rx_fold_closed k p n 0 (by omega) (p.getD 0 0)
  rw [show (0 : ℕ) + 1 = 1 from rfl] at h
  rw [h]
  rw [Finset.sum_range_succ']
  simp only [List.drop_zero, Nat.add_zero, Nat.sub_zero, Nat.zero_add]
  have hterm : ∀ i, i < n →
      p.getD (1 + i) 0 * ((k.drop (1 + i)).take (n - 1 - i)).prod =
        p.getD (i + 1) 0 * ((k.take n).drop (i + 1)).prod := by
    intro i hi
    rw [List.take_drop]
    rw [show 1 + i + (n - 1 - i) = n by omega]
    rw [show (1 : ℕ) + i = i + 1 by omega]
  have hsum : (∑ i in Finset.range n,
        p.getD (1 + i) 0 * ((k.drop (1 + i)).take (n - 1 - i)).prod) =
      ∑ i in Finset.range n, p.getD (i + 1) 0 * ((k.take n).drop (i + 1)).prod :=
    Finset.sum_congr rfl fun i hi => hterm i (Finset.mem_range.mp hi)
  rw [hsum]
  ring

theorem radixkGetK_two_four : ∀ hm : (2 : ℕ) ≤ 2, radixkGetK 2 hm 4 = [2, 2] := by
  intro hm
  have hf4 : radixkFindNextK 2 4 = 2 := by decide
  have hf2 : radixkFindNextK 2 2 = 2 := by decide
  have h1 : radixkGetK 2 hm 1 = [] := by
    rw [radixkGetK, dif_pos (by norm_num : (1 : ℕ) ≤ 1)]
  have h2 : radixkGetK 2 hm 2 = [2] := by
    rw [radixkGetK, dif_neg (by norm_num : ¬((2 : ℕ) ≤ 1))]
    show radixkFindNextK 2 2 :: radixkGetK 2 hm (2 / radixkFindNextK 2 2) = [2]
    rw [hf2]
    rw [show (2 : ℕ) / 2 = 1 from by norm_num]
    rw [h1]
  rw [radixkGetK, dif_neg (by norm_num : ¬((4 : ℕ) ≤ 1))]
  show radixkFindNextK 2 4 :: radixkGetK 2 hm (4 / radixkFindNextK 2 4) = [2, 2]
  rw [hf4]
  rw [show (4 : ℕ) / 2 = 2 from by norm_num]
  rw [h2]

/-- C4 (corrected): when interlacing is active (more than one round and
`ICET_INTERLACE_IMAGES` enabled), `icetRadixkCompose` reports
`piece_offset = icetGetInterlaceOffset(g, group_size, N_input)`, but the
global partition index `g` it passes (radixk.c lines 661-667) weights the
round digits most-significant-first,
`g = ∑ pidx[i] · ∏ k_array[i .. R-2]`, which differs from the
little-endian mixed-radix pack `∑ pidx[i] · ∏_{j<i} k_j` (equal to
`group_rank`) stated in the claim; when not interlaced it reports the
final round's split offset. -/
theorem radixk_interlace_piece_offset (env : RxEnv) (magic_k : ℕ)
    (hm : 2 ≤ magic_k) (compose_group : List ℕ)
    (group_size image_dest my_rank : ℕ)
    (hmem : my_rank ∈ compose_group) (hgs : 2 ≤ group_size) :
    (icetRadixkCompose env magic_k hm compose_group group_size image_dest
        my_rank).2.1 =
      if 1 < (radixkGetK magic_k hm group_size).length ∧
          env.interlace_enabled = true then
        env.interlace_offset
          (∑ i in Finset.range (radixkGetK magic_k hm group_size).length,
            (radixkGetPartitionIndices (radixkGetK magic_k hm group_size)
                (icetFindMyRankInGroup compose_group my_rank).toNat).getD i 0 *
              (((radixkGetK magic_k hm group_size).take
                  ((radixkGetK magic_k hm group_size).length - 1)).drop i).prod)
          group_size env.input_pixels
      else env.round_offset ((radixkGetK magic_k hm group_size).length - 1) := by
  have hnn := icetFindMyRankInGroup_nonneg compose_group my_rank hmem
  have hne := radixkGetK_ne_nil magic_k hm group_size hgs
  have hlen1 : 1 ≤ (radixkGetK magic_k hm group_size).length :=
    List.length_pos.mpr hne
  have hplen : (radixkGetPartitionIndices (radixkGetK magic_k hm group_size)
      (icetFindMyRankInGroup compose_group my_rank).toNat).length =
      (radixkGetK magic_k hm group_size).length :=
    radixkGetPartitionIndicesFrom_length _ _ _
  rw [icetRadixkCompose]
  dsimp only
  rw [if_neg (show ¬(icetFindMyRankInGroup compose_group my_rank < 0) from
    by omega)]
  rw [if_neg (show ¬(group_size = 1) from by omega)]
  by_cases hui : 1 < (radixkGetK magic_k hm group_size).length ∧
      env.interlace_enabled = true
  · have hb : (decide (1 < (radixkGetK magic_k hm group_size).length) &&
        env.interlace_enabled) = true := by
      rw [Bool.and_eq_true, decide_eq_true_iff]
      exact hui
    simp only [if_pos hb, if_pos hui]
    rw [radixkGlobalPartition_closed _ _ hplen hlen1]
  · have hb : ¬((decide (1 < (radixkGetK magic_k hm group_size).length) &&
        env.interlace_enabled) = true) := by
      rw [Bool.and_eq_true, decide_eq_true_iff]
      exact hui
    simp only [if_neg hb, if_neg hui]
    obtain ⟨n, hn⟩ : ∃ n, (radixkGetK magic_k hm group_size).length = n + 1 :=
      ⟨(radixkGetK magic_k hm group_size).length - 1, by omega⟩
    rw [hn, list_foldl_const_last]
    rw [show n + 1 - 1 = n from rfl]

theorem radixk_interlace_piece_offset_witness :
    2 ≤ 2 ∧ (11 : ℕ) ∈ [10, 11, 12, 13] ∧ 2 ≤ 4 ∧
      ((icetRadixkCompose rxEnvC 2 (le_refl 2) [10, 11, 12, 13] 4 0 11).2.1 =
        if 1 < (radixkGetK 2 (le_refl 2) 4).length ∧
            rxEnvC.interlace_enabled = true then
          rxEnvC.interlace_offset
            (∑ i in Finset.range (radixkGetK 2 (le_refl 2) 4).length,
              (radixkGetPartitionIndices (radixkGetK 2 (le_refl 2) 4)
                  (icetFindMyRankInGroup [10, 11, 12, 13] 11).toNat).getD i 0 *
                (((radixkGetK 2 (le_refl 2) 4).take
                    ((radixkGetK 2 (le_refl 2) 4).length - 1)).drop i).prod)
            4 rxEnvC.input_pixels
        else rxEnvC.round_offset ((radixkGetK 2 (le_refl 2) 4).length - 1)) :=
  ⟨le_refl 2, by decide, by norm_num,
    radixk_interlace_piece_offset rxEnvC 2 (le_refl 2) [10, 11, 12, 13] 4 0 11
      (by decide) (by norm_num)⟩

/-- C4 counterexample: for `group_size = 4`, `magic_k = 2` the factor list
is `[2, 2]` and rank 1 in the group has partition indices `[1, 0]`.  The
claimed mixed-radix pack is `1 + 2·0 = 1` (the group rank), but the code's
accumulation (radixk.c lines 661-667) computes `1·2 + 0 = 2` and the driver
reports the interlace offset of global partition 2, not 1. -/
theorem radixk_interlace_pack_counterexample :
    mixedRadixPack (radixkGetK 2 (le_refl 2) 4)
        (radixkGetPartitionIndices (radixkGetK 2 (le_refl 2) 4) 1) = 1 ∧
    (icetRadixkCompose rxEnvC 2 (le_refl 2) [10, 11, 12, 13] 4 0 11).2.1 = 2 ∧
    rxEnvC.interlace_offset
        (mixedRadixPack (radixkGetK 2 (le_refl 2) 4)
          (radixkGetPartitionIndices (radixkGetK 2 (le_refl 2) 4) 1))
        4 rxEnvC.input_pixels = 1 := by
  refine ⟨?_, ?_, ?_⟩
  · rw [radixkGetK_two_four]
    decide
  · rw [icetRadixkCompose]
    dsimp only
    rw [radixkGetK_two_four]
    decide
  · rw [radixkGetK_two_four]
    decide

/-! ## The reduce strategy's displayed-tile clear (`icetReduceCompose`,
reduce.c lines 129-144)

The stages before the final branch — `delegate`, the single-image compose
and the collect loop — produce the process's `compose_tile` assignment and
the collected `result_image`; the branch itself only reads those results,
so they enter the embedding as arguments. -/

/-- Content state of an `IceTImage` buffer. -/
inductive IcImageContent
  | collected
  | cleared
deriving DecidableEq

/-- An `IceTImage` as the final branch observes it: its dimensions and
whether its pixels have been cleared. -/
structure IcImage where
  width : ℤ
  height : ℤ
  content : IcImageContent
deriving DecidableEq

/-- `icetImageSetDimensions` (called at reduce.c line 139). -/
def icetImageSetDimensions (img : IcImage) (w h : ℤ) : IcImage :=
  { img with width := w, height := h }

/-- `icetClearImage` (called at reduce.c line 142). -/
def icetClearImage (img : IcImage) : IcImage :=
  { img with content := IcImageContent.cleared }

/-- Final stage of `icetReduceCompose` (reduce.c lines 129-145):
`result_image` is the image produced by the collect loop, `compose_tile`
the tile this process composited (-1 when none).  When the local display
tile exists and is not the composited tile, the result is resized to the
display tile's viewport width and height (`tile_viewports[4*t+2]`,
`tile_viewports[4*t+3]`) and cleared; otherwise it is returned as is. -/
def icetReduceCompose (result_image : IcImage)
    (tile_displayed compose_tile : ℤ) (tile_viewports : List ℤ) : IcImage :=
  if 0 ≤ tile_displayed ∧ tile_displayed ≠ compose_tile then
    icetClearImage
      (icetImageSetDimensions result_image
        (tile_viewports.getD (4 * tile_displayed.toNat + 2) 0)
        (tile_viewports.getD (4 * tile_displayed.toNat + 3) 0))
  else result_image

/-- C10: whenever the locally displayed tile exists (`ICET_TILE_DISPLAYED
≥ 0`) and differs from the tile this process composited (including
`compose_tile = -1`), the image `icetReduceCompose` returns has been
resized to the displayed tile's viewport width and height and cleared to
empty pixels (reduce.c lines 129-144). -/
theorem reduce_displayed_tile_cleared (result_image : IcImage)
    (tile_displayed compose_tile : ℤ) (tile_viewports : List ℤ)
    (hd : 0 ≤ tile_displayed) (hne : tile_displayed ≠ compose_tile) :
    icetReduceCompose result_image tile_displayed compose_tile tile_viewports =
      { width := tile_viewports.getD (4 * tile_displayed.toNat + 2) 0
        height := tile_viewports.getD (4 * tile_displayed.toNat + 3) 0
        content := IcImageContent.cleared } := by
  rw [icetReduceCompose, if_pos ⟨hd, hne⟩]
  rfl

theorem reduce_displayed_tile_cleared_witness :
    (0 : ℤ) ≤ 1 ∧ (1 : ℤ) ≠ -1 ∧
      icetReduceCompose
          { width := 100, height := 80, content := IcImageContent.collected }
          1 (-1) [0, 0, 10, 20, 5, 5, 30, 40] =
        { width := ([0, 0, 10, 20, 5, 5, 30, 40] : List ℤ).getD
            (4 * (1 : ℤ).toNat + 2) 0
          height := ([0, 0, 10, 20, 5, 5, 30, 40] : List ℤ).getD
            (4 * (1 : ℤ).toNat + 3) 0
          content := IcImageContent.cleared } :=
  ⟨by decide, by decide,
    reduce_displayed_tile_cleared
      { width := 100, height := 80, content := IcImageContent.collected }
      1 (-1) [0, 0, 10, 20, 5, 5, 30, 40] (by decide) (by decide)⟩

end IceT
